import Mathlib

/-!
Smooth: a clamp-to-edge 2D convolution benchmark.

A shallow embedding of `AuraE_RÖ3.cpp` (`makeKernel`, `smooth` and the parts of `main`
that build the input image and the normalisation factor), together with the
properties of the program that are checked against its description.

Arithmetic of the embedding:

* C++ `int` values are mathematical integers (`Int`); the type `int` has 32 bits
  (`intFits`).  Signed overflow is undefined behaviour in C++: the offsets and indices
  of `smooth` and the cell count of `makeKernel` are kept exact, which is what the
  program computes as long as they fit an `int`, and the statements about the sizes at
  which they stop fitting say which values have to fit.  In two places the model
  follows what the x86-64 build does outside the range that C++ defines: the
  conversions `(int)x` and `(unsigned char)x` of a `double` (`FP.toInt`, `FP.toUChar`),
  and the side length `(int)radius*2+1` of `makeKernel`, which is reduced to 32 bits
  (`wrap32`).
* `float` and `double` values are IEEE 754 binary32 / binary64 values, represented by
  the rational number they denote, or an infinity, or NaN (`FP`).  Every operation
  rounds its exact result to nearest, ties to even, in the format of the operation
  (`Fmt.round`), with gradual underflow and overflow to infinity: the arithmetic of
  a compiler that evaluates `float` expressions in `float` and `double` expressions
  in `double`, without fused operations.  The sign of zero is not represented: the
  program never divides a non-zero number by zero, the only place where it could be
  observed.
* `std::exp` is a parameter of the model (the C library's function is not part of the
  program); the statements list the properties of it that they rely on (`ExpSpec`).
* Buffers reached through pointers are functions from the element offset to the
  stored value; the input, output and kernel buffers are separate objects.
-/

namespace Smooth

/-! ## Machine integers -/

/-- The values of the type `int`: 32 bits, two's complement. -/
@[reducible]
def intFits (n : Int) : Prop := -2 ^ 31 ≤ n ∧ n < 2 ^ 31

/-- The value the build gives an `int` expression whose exact value is `n`: the number of
the range of `int` that differs from `n` by a multiple of `2^32`.  It is `n` itself when
`n` fits an `int`; otherwise C++ leaves the expression undefined. -/
def wrap32 (n : Int) : Int := (n + 2 ^ 31) % 2 ^ 32 - 2 ^ 31

/-! ## Binary floating point -/

/-- Halving loop counting the binary digits of `n`; the first argument bounds the
number of iterations. -/
def bitLenAux : Nat → Nat → Nat
  | 0, _ => 0
  | fuel + 1, n => if n = 0 then 0 else bitLenAux fuel (n / 2) + 1

/-- Number of binary digits of `n` (`0` for `n = 0`). -/
def bitLen (n : Nat) : Nat := bitLenAux n n

/-- Exponent of a non-zero rational: the integer `e` with `2 ^ e ≤ |q| < 2 ^ (e + 1)`. -/
def ilog2 (q : ℚ) : ℤ :=
  let e : ℤ := (bitLen q.num.natAbs : ℤ) - (bitLen q.den : ℤ)
  if |q| < (2 : ℚ) ^ e then e - 1 else e

/-- Nearest integer, ties to the even one. -/
def rne (q : ℚ) : ℤ :=
  let f : ℤ := ⌊q⌋
  if q - f < 1 / 2 then f
  else if 1 / 2 < q - f then f + 1
  else if f % 2 = 0 then f else f + 1

/-- A binary floating-point format: precision in bits (hidden bit included) and
the exponents of the smallest and of the largest normal binade. -/
structure Fmt where
  prec : Nat
  emin : Int
  emax : Int
  deriving DecidableEq, Repr

/-- IEEE 754 binary32, the C++ `float`. -/
def binary32 : Fmt := ⟨24, -126, 127⟩

/-- IEEE 754 binary64, the C++ `double`. -/
def binary64 : Fmt := ⟨53, -1022, 1023⟩

/-- Rounding of a rational to the format's grid (unbounded above): the spacing of
the grid at `q` is `2 ^ (max e emin - (prec - 1))`, `e` the exponent of `q`. -/
def Fmt.roundQ (f : Fmt) (q : ℚ) : ℚ :=
  if q = 0 then 0
  else
    let e : ℤ := max (ilog2 q) f.emin
    let ulp : ℚ := (2 : ℚ) ^ (e - ((f.prec : ℤ) - 1))
    (rne (q / ulp) : ℚ) * ulp

/-- A floating-point datum: a finite value, an infinity or a NaN. -/
inductive FP where
  | fin (q : ℚ)
  | pinf
  | ninf
  | nan
  deriving DecidableEq, Repr

/-- Rounding of an exact result into the format, overflowing to an infinity. -/
def Fmt.round (f : Fmt) (q : ℚ) : FP :=
  let r : ℚ := f.roundQ q
  if (2 : ℚ) ^ (f.emax + 1) ≤ r then FP.pinf
  else if r ≤ -(2 : ℚ) ^ (f.emax + 1) then FP.ninf
  else FP.fin r

namespace FP

/-- Negation. -/
def neg : FP → FP
  | fin a => fin (-a)
  | pinf => ninf
  | ninf => pinf
  | nan => nan

/-- Addition in format `f`. -/
def add (f : Fmt) : FP → FP → FP
  | fin a, fin b => f.round (a + b)
  | fin _, pinf => pinf
  | fin _, ninf => ninf
  | pinf, fin _ => pinf
  | pinf, pinf => pinf
  | ninf, fin _ => ninf
  | ninf, ninf => ninf
  | _, _ => nan

/-- Subtraction in format `f`. -/
def sub (f : Fmt) (a b : FP) : FP := add f a (neg b)

/-- Multiplication in format `f`. -/
def mul (f : Fmt) : FP → FP → FP
  | fin a, fin b => f.round (a * b)
  | fin a, pinf => if a = 0 then nan else if 0 < a then pinf else ninf
  | fin a, ninf => if a = 0 then nan else if 0 < a then ninf else pinf
  | pinf, fin b => if b = 0 then nan else if 0 < b then pinf else ninf
  | ninf, fin b => if b = 0 then nan else if 0 < b then ninf else pinf
  | pinf, pinf => pinf
  | pinf, ninf => ninf
  | ninf, pinf => ninf
  | ninf, ninf => pinf
  | _, _ => nan

/-- Division in format `f`. -/
def div (f : Fmt) : FP → FP → FP
  | fin a, fin b =>
    if b = 0 then (if a = 0 then nan else if 0 < a then pinf else ninf)
    else f.round (a / b)
  | fin _, pinf => fin 0
  | fin _, ninf => fin 0
  | pinf, fin b => if 0 ≤ b then pinf else ninf
  | ninf, fin b => if 0 ≤ b then ninf else pinf
  | _, _ => nan

/-- The comparison `a < b`; false as soon as one side is a NaN. -/
def lt : FP → FP → Bool
  | fin a, fin b => decide (a < b)
  | fin _, pinf => true
  | ninf, fin _ => true
  | ninf, pinf => true
  | _, _ => false

/-- Conversion of an integer to format `f`. -/
def ofInt (f : Fmt) (n : Int) : FP := f.round n

/-- Conversion between formats (`double` to `float` rounds, `float` to `double` is
exact and needs no conversion in this representation). -/
def cast (f : Fmt) : FP → FP
  | fin a => f.round a
  | x => x

/-- Round toward zero to an integer. -/
def truncQ (q : ℚ) : Int := if 0 ≤ q then ⌊q⌋ else ⌈q⌉

/-- The conversion `(int)x`: truncation toward zero.  C++ defines it when the truncated
value fits an `int`.  For the other values, an infinity and a NaN the model returns what
the conversion instruction of the build (`cvttsd2si`) returns, the least `int`. -/
def toInt : FP → Int
  | fin a => if intFits (truncQ a) then truncQ a else -2 ^ 31
  | _ => -2 ^ 31

/-- The conversion `(unsigned char)x`.  C++ defines it for `-1 < x < 256` only, and the
result is then the value truncated toward zero.  The build converts to `int` and keeps
the low 8 bits, which is what the model does for every value: the truncated value
reduced to 8 bits when it fits an `int`, and `0` (the low 8 bits of the least `int`) when
it does not, for an infinity and for a NaN. -/
def toUChar (x : FP) : Nat := (toInt x % 256).toNat

end FP

/-! ## The library function `exp` -/

/-- The properties of `std::exp` that the statements about the generated kernel
rely on: `exp(0)` is exactly `1`, and for a finite argument that is not positive the
result is a finite number between `0` and `1`. -/
structure ExpSpec (exp : FP → FP) : Prop where
  zero : exp (FP.fin 0) = FP.fin 1
  nonpos : ∀ a : ℚ, a ≤ 0 → ∃ b : ℚ, exp (FP.fin a) = FP.fin b ∧ 0 ≤ b ∧ b ≤ 1

/-- Two more properties of `std::exp`, for the statement that the threshold of
`makeKernel` is never reached: `exp` does not decrease on the arguments that are
not positive, and `exp(-6.25)`, which is `0.0019304…`, is computed as a finite
number not below `0.0019`. -/
structure ExpGaussRange (exp : FP → FP) : Prop where
  mono : ∀ a b va vb : ℚ, a ≤ b → b ≤ 0 →
    exp (FP.fin a) = FP.fin va → exp (FP.fin b) = FP.fin vb → va ≤ vb
  edge : ∃ e : ℚ, exp (FP.fin (-(25 / 4))) = FP.fin e ∧ 19 / 10000 ≤ e

/-- Partial sum of the exponential series, `n` terms. -/
def expSeries (t : ℚ) (n : Nat) : ℚ :=
  (List.range n).foldl (fun s k => s + t ^ k / (k.factorial : ℚ)) 0

/-- A stand-in for `std::exp`, for the places where a statement is instantiated at
a concrete function: the double nearest to 24 terms of the exponential series, or
to the reciprocal of the series at `-a` when `a` is negative.  It is not the C
library's function, whose result for the same argument can differ from it. -/
def expStandIn : FP → FP
  | FP.fin a =>
    if a ≤ 0 then binary64.round (1 / expSeries (-a) 24) else binary64.round (expSeries a 24)
  | FP.pinf => FP.pinf
  | FP.ninf => FP.fin 0
  | FP.nan => FP.nan

/-! ## The program -/

/-- The values `lo, lo + 1, …, hi` taken, in this order, by the counter of a loop
`for (int t = lo; t <= hi; t++)` whose body does not assign to `t`. -/
def upTo (lo hi : Int) : List Int :=
  (List.range (hi + 1 - lo).toNat).map (fun (k : Nat) => lo + (k : Int))

/-- The double literal `0.5`. -/
def c0_5 : FP := binary64.round (1 / 2)

/-- The double literal `0.2`. -/
def c0_2 : FP := binary64.round (1 / 5)

/-- The double literal `0.0005`. -/
def c0_0005 : FP := binary64.round (5 / 10000)

/-- The template `mysqr` at type `double`. -/
def mysqr (x : FP) : FP := FP.mul binary64 x x

/-- The value `v` that `makeKernel` computes for the cell `(x, y)` (lines 33 to 35):
the Gaussian of the normalised coordinates, replaced by `0.0` below `0.0005`. -/
def kernelValue (exp : FP → FP) (radius : FP) (x y : Int) : FP :=
  let dx := FP.div binary64 (FP.sub binary64 (FP.ofInt binary64 x) radius)
    (FP.mul binary64 radius (FP.ofInt binary64 2))
  let dy := FP.div binary64 (FP.sub binary64 (FP.ofInt binary64 y) radius)
    (FP.mul binary64 radius (FP.ofInt binary64 2))
  let v := exp (FP.mul binary64 (FP.neg c0_5)
    (FP.div binary64 (FP.add binary64 (mysqr dx) (mysqr dy)) (mysqr c0_2)))
  if FP.lt v c0_0005 then FP.fin 0 else v

/-- The function `makeKernel`: the contents of the buffer it returns and the side
length it stores through `ksize`.  The side length is the 32-bit value of
`(int)radius*2+1`.  The buffer has `size * size` cells, NaN until written; the store
`kernel[y*size+x] = v` converts `v` to `float`.  The product `size*size` and the index
`y*size+x` are kept exact: when `size*size` does not fit an `int` the allocation of the
program fails and nothing is returned, a case that the model does not represent and that
the statements about the returned buffer exclude. -/
def makeKernel (exp : FP → FP) (radius : FP) : List FP × Int :=
  let size : Int := wrap32 (FP.toInt radius * 2 + 1)
  let fresh : List FP := List.replicate (size * size).toNat FP.nan
  let kernel : List FP :=
    (upTo 0 (size - 1)).foldl (fun k y =>
      (upTo 0 (size - 1)).foldl (fun k x =>
        k.set (y * size + x).toNat (FP.cast binary32 (kernelValue exp radius x y))) k) fresh
  (kernel, size)

/-- A buffer of floats seen through a pointer to its first cell. -/
def kernelAt (k : List FP) (i : Int) : FP :=
  if 0 ≤ i then k.getD i.toNat FP.nan else FP.nan

/-- The variables that the innermost loop of `smooth` reads and assigns. -/
structure TapState where
  sum : FP
  i : Int
  ny : Int
  deriving DecidableEq

/-- Body of the innermost loop of `smooth` (lines 81 to 87), for the offset `u`. -/
def tap (inPtr : Int → Nat) (kernel : Int → FP) (width height z : Int)
    (inIncX inIncY inIncZ : Int) (x : Int) (s : TapState) (u : Int) : TapState :=
  let nx : Int := x + u
  let nx : Int := if nx ≤ 0 then 0 else if nx > width then width else nx
  let ny : Int := if s.ny ≤ 0 then 0 else if s.ny > height then height else s.ny
  let val : Nat := inPtr (z * inIncZ + ny * inIncY + nx * inIncX)
  { sum := FP.add binary64 s.sum (FP.mul binary32 (FP.ofInt binary32 (val : Int)) (kernel s.i))
    i := s.i + 1
    ny := ny }

/-- Body of the loop over `v` (lines 79 to 88): `ny` starts at `y + v`, then the
loop over `u` runs; `sum` and `i` are carried to the next `v`. -/
def tapRow (inPtr : Int → Nat) (kernel : Int → FP) (width height z : Int)
    (inIncX inIncY inIncZ : Int) (uc : Int) (x y : Int) (s : FP × Int) (v : Int) : FP × Int :=
  let r := (upTo (-uc) uc).foldl (tap inPtr kernel width height z inIncX inIncY inIncZ x)
    { sum := s.1, i := s.2, ny := y + v }
  (r.sum, r.i)

/-- The value of `sum` when the loops over the footprint end (lines 75 to 89). -/
def pixelSum (inPtr : Int → Nat) (kernel : Int → FP) (width height z : Int)
    (inIncX inIncY inIncZ : Int) (uc vc : Int) (x y : Int) : FP :=
  ((upTo (-vc) vc).foldl (tapRow inPtr kernel width height z inIncX inIncY inIncZ uc x y)
    (FP.fin 0, 0)).1

/-- One read of the footprint loops: the coordinates of the input sample, after
clamping, and the index of the kernel weight. -/
structure TapRead where
  nx : Int
  ny : Int
  i : Int
  deriving DecidableEq, Repr

/-- The reads of the body of the innermost loop: the assignments to `nx`, `ny` and
`i` are those of `tap`, and the read of `GET_AT(nx,ny,z,inPtr)` and `kernel[i]` is
recorded in place of being added to `sum`. -/
def tapReads (width height : Int) (x : Int) (s : List TapRead × Int × Int) (u : Int) :
    List TapRead × Int × Int :=
  let nx : Int := x + u
  let nx : Int := if nx ≤ 0 then 0 else if nx > width then width else nx
  let ny : Int := if s.2.2 ≤ 0 then 0 else if s.2.2 > height then height else s.2.2
  (s.1 ++ [{ nx := nx, ny := ny, i := s.2.1 }], s.2.1 + 1, ny)

/-- The reads of the body of the loop over `v`. -/
def rowReads (width height : Int) (uc : Int) (x y : Int) (s : List TapRead × Int) (v : Int) :
    List TapRead × Int :=
  let r := (upTo (-uc) uc).foldl (tapReads width height x) (s.1, s.2, y + v)
  (r.1, r.2.1)

/-- The reads of the footprint loops for the pixel `(x, y)`, in program order. -/
def footprintReads (width height : Int) (uc vc : Int) (x y : Int) : List TapRead :=
  ((upTo (-vc) vc).foldl (rowReads width height uc x y) ([], 0)).1

/-- The term a read adds to `sum`. -/
def tapTerm (inPtr : Int → Nat) (kernel : Int → FP) (z : Int) (inIncX inIncY inIncZ : Int)
    (acc : FP) (r : TapRead) : FP :=
  FP.add binary64 acc
    (FP.mul binary32
      (FP.ofInt binary32 ((inPtr (z * inIncZ + r.ny * inIncY + r.nx * inIncX) : Nat) : Int))
      (kernel r.i))

/-- What a call of `smooth` leaves behind: the output buffer, and whether the
diagnostic about an even kernel size was printed. -/
structure SmoothResult where
  out : Int → Nat
  diagnostic : Bool

/-- The function `smooth`.  The unnamed third parameter is not used and is left out. -/
def smooth (inPtr : Int → Nat) (outPtr : Int → Nat) (ext : Fin 6 → Int) (kernel : Int → FP)
    (scale : FP) (size : Int) (inIncX inIncY inIncZ outIncX outIncY outIncZ : Int) :
    SmoothResult :=
  let uc : Int := Int.tdiv size 2
  let vc : Int := Int.tdiv size 2
  let z : Int := ext 4
  let xmin : Int := ext 0
  let xmax : Int := ext 1
  let ymin : Int := ext 2
  let ymax : Int := ext 3
  let height : Int := ymax
  let width : Int := xmax
  { diagnostic := decide (Int.land size 1 ≠ 1)
    out :=
      (upTo ymin ymax).foldl (fun out y =>
        (upTo xmin xmax).foldl (fun out x =>
          let sum := pixelSum inPtr kernel width height z inIncX inIncY inIncZ uc vc x y
          Function.update out (z * outIncZ + y * outIncY + x * outIncX)
            (FP.toUChar (FP.mul binary64 scale sum))) out) outPtr }

/-- The array `input` of `main` (lines 109 to 112): `10` at the even offsets and `8`
at the odd ones. -/
def harnessInput (i : Int) : Nat := if i % 2 = 0 then 10 else 8

/-- The call `std::accumulate(kernel, kernel + n, 0.0)`: a sum in `double`,
from the first cell on. -/
def accumulate (k : List FP) : FP :=
  k.foldl (fun acc w => FP.add binary64 acc w) (FP.fin 0)

/-- The value `main` gives `scale` (line 151), for the kernel of radius `kernelRadius`
(lines 136 to 138). -/
def harnessScale (exp : FP → FP) (kernelRadius : Int) : FP :=
  let ks := makeKernel exp (FP.ofInt binary64 kernelRadius)
  FP.div binary64 (FP.fin 1) (accumulate (ks.1.take (ks.2 * ks.2).toNat))

/-- The array `uext` of `main` (lines 126 to 132), for a `width` by `height` image. -/
def harnessExtent (width height : Int) : Fin 6 → Int :=
  ![0, width - 1, 0, height - 1, 0, 0]

/-! ## The contract's reference quantities -/

/-- Clamp-to-edge of a coordinate in the words of the contract: `min (max t 0) bound`. -/
def clampEdge (t bound : Int) : Int := min (max t 0) bound

/-- The clamped weighted sum of the contract at the pixel `(x, y)`, for a footprint
of half-width `h` and a kernel of side `size`: the tap at offset `(u, v)` multiplies
the weight `kernel[(v+h)*size + (u+h)]` with the input sample at the clamped
coordinates.  The taps are added in `double`, row by row, each product formed in
`float`, which is the arithmetic of the program. -/
def clampedWeightedSum (inPtr : Int → Nat) (kernel : Int → FP) (xmax ymax z : Int)
    (inIncX inIncY inIncZ : Int) (h size : Int) (x y : Int) : FP :=
  (upTo (-h) h).foldl (fun acc v =>
    (upTo (-h) h).foldl (fun acc u =>
      FP.add binary64 acc
        (FP.mul binary32
          (FP.ofInt binary32
            ((inPtr (clampEdge (x + u) xmax * inIncX + clampEdge (y + v) ymax * inIncY
              + z * inIncZ) : Nat) : Int))
          (kernel ((v + h) * size + (u + h))))) acc) (FP.fin 0)

/-- The convolution at the pixel `(x, y)` with the kernel flipped in both axes: the
tap at offset `(u, v)` multiplies the weight `kernel[(h-v)*size + (h-u)]` with the
input sample at the clamped coordinates; the arithmetic is that of
`clampedWeightedSum`. -/
def convolutionSum (inPtr : Int → Nat) (kernel : Int → FP) (xmax ymax z : Int)
    (inIncX inIncY inIncZ : Int) (h size : Int) (x y : Int) : FP :=
  (upTo (-h) h).foldl (fun acc v =>
    (upTo (-h) h).foldl (fun acc u =>
      FP.add binary64 acc
        (FP.mul binary32
          (FP.ofInt binary32
            ((inPtr (clampEdge (x + u) xmax * inIncX + clampEdge (y + v) ymax * inIncY
              + z * inIncZ) : Nat) : Int))
          (kernel ((h - v) * size + (h - u))))) acc) (FP.fin 0)

/-- The argument of `exp` in the Gaussian of the contract for the cell `(x, y)` of the
kernel of radius `r`: `-0.5 * ((dx*dx + dy*dy) / 0.2^2)` with `dx = (x - r) / (2r)` and
`dy = (y - r) / (2r)`, every operation rounded to `double`.  The constants are written
out: `0.5` is exact and `0.2^2` in `double` is `1441151880758559 / 2^55` (about
`0.04000000000000001`). -/
def gaussArgRef (r : ℚ) (x y : Int) : FP :=
  let dx := FP.div binary64 (binary64.round ((x : ℚ) - r)) (binary64.round (r * 2))
  let dy := FP.div binary64 (binary64.round ((y : ℚ) - r)) (binary64.round (r * 2))
  FP.mul binary64 (FP.fin (-(1 / 2)))
    (FP.div binary64 (FP.add binary64 (FP.mul binary64 dx dx) (FP.mul binary64 dy dy))
      (FP.fin (1441151880758559 / 36028797018963968)))

/-- The thresholded Gaussian of the contract for the cell `(x, y)` of the kernel of radius
`r`: `g = exp(-0.5 * ((dx*dx + dy*dy) / 0.2^2))`, and `0` in place of `g` when `g < 0.0005`
(the `double` nearest to `0.0005` is `1152921504606847 / 2^61`). -/
def gaussianRef (exp : FP → FP) (r : ℚ) (x y : Int) : FP :=
  let g := exp (gaussArgRef r x y)
  if FP.lt g (FP.fin (1152921504606847 / 2305843009213693952)) then FP.fin 0 else g

/-- The pixels of an extent in the order in which `smooth` visits them: row by row,
each row from `xmin` to `xmax`. -/
def extentPixels (xmin xmax ymin ymax : Int) : List (Int × Int) :=
  (upTo ymin ymax).flatMap (fun y => (upTo xmin xmax).map (fun x => (x, y)))

end Smooth

namespace Smooth

/-! ## Loops -/

theorem upTo_nil {lo hi : Int} (h : hi < lo) : upTo lo hi = [] := by
  have : (hi + 1 - lo).toNat = 0 := by omega
  simp [upTo, this]

theorem upTo_cons {lo hi : Int} (h : lo ≤ hi) : upTo lo hi = lo :: upTo (lo + 1) hi := by
  obtain ⟨n, hn⟩ : ∃ n : Nat, (hi + 1 - lo).toNat = n + 1 := ⟨(hi - lo).toNat, by omega⟩
  have hn2 : (hi + 1 - (lo + 1)).toNat = n := by omega
  simp only [upTo, hn, hn2, List.range_succ_eq_map, List.map_cons, List.map_map]
  refine congrArg₂ _ (by simp) (List.map_congr_left ?_)
  intro k _
  simp only [Function.comp, Nat.succ_eq_add_one]
  push_cast
  ring

theorem mem_upTo {lo hi t : Int} : t ∈ upTo lo hi ↔ lo ≤ t ∧ t ≤ hi := by
  simp only [upTo, List.mem_map, List.mem_range]
  constructor
  · rintro ⟨k, hk, rfl⟩
    omega
  · intro h
    exact ⟨(t - lo).toNat, by omega, by omega⟩

theorem length_upTo (lo hi : Int) : (upTo lo hi).length = (hi + 1 - lo).toNat := by
  simp [upTo]

/-- Induction over the counter of a loop, from the first value up. -/
theorem upTo_induction {P : Int → Prop} (hi : Int)
    (hnil : ∀ lo, hi < lo → P lo)
    (hcons : ∀ lo, lo ≤ hi → P (lo + 1) → P lo) (lo : Int) : P lo := by
  obtain ⟨n, hn⟩ : ∃ n : Nat, (hi + 1 - lo).toNat = n := ⟨_, rfl⟩
  induction n generalizing lo with
  | zero => exact hnil lo (by omega)
  | succ n ih => exact hcons lo (by omega) (ih (lo + 1) (by omega))

end Smooth

namespace Smooth

/-! ## The footprint loops of `smooth` -/

theorem clamp_eq_clampEdge (t b : Int) (hb : 0 ≤ b) :
    (if t ≤ 0 then 0 else if t > b then b else t) = clampEdge t b := by
  unfold clampEdge
  split_ifs <;> omega

theorem clampEdge_idem (t b : Int) (hb : 0 ≤ b) : clampEdge (clampEdge t b) b = clampEdge t b := by
  unfold clampEdge
  omega

theorem clampEdge_mem (t b : Int) (hb : 0 ≤ b) : 0 ≤ clampEdge t b ∧ clampEdge t b ≤ b := by
  unfold clampEdge
  omega

/-- The loop over `u`: the taps of one row, the kernel index advancing by one per
tap and `ny` clamped by the first tap. -/
theorem foldl_tap (inPtr : Int → Nat) (kernel : Int → FP) (width height z : Int)
    (inIncX inIncY inIncZ : Int) (x : Int) (hw : 0 ≤ width) (hh : 0 ≤ height) (hi : Int)
    (lo : Int) : ∀ (s : FP) (i ny : Int),
    (upTo lo hi).foldl (tap inPtr kernel width height z inIncX inIncY inIncZ x)
        { sum := s, i := i, ny := ny } =
      { sum := (upTo lo hi).foldl (fun acc u =>
          FP.add binary64 acc
            (FP.mul binary32
              (FP.ofInt binary32
                ((inPtr (clampEdge (x + u) width * inIncX + clampEdge ny height * inIncY
                  + z * inIncZ) : Nat) : Int))
              (kernel (i - lo + u)))) s
        i := i + (hi + 1 - lo).toNat
        ny := if lo ≤ hi then clampEdge ny height else ny } := by
  induction lo using upTo_induction hi with
  | hnil lo hlt =>
    intro s i ny
    have h0 : (hi + 1 - lo).toNat = 0 := by omega
    simp [upTo_nil hlt, h0, not_le.mpr hlt]
  | hcons lo hle ih =>
    intro s i ny
    rw [upTo_cons hle, List.foldl_cons, List.foldl_cons]
    have hstep : tap inPtr kernel width height z inIncX inIncY inIncZ x
        { sum := s, i := i, ny := ny } lo =
        { sum := FP.add binary64 s (FP.mul binary32 (FP.ofInt binary32
            ((inPtr (clampEdge (x + lo) width * inIncX + clampEdge ny height * inIncY
              + z * inIncZ) : Nat) : Int)) (kernel (i - lo + lo)))
          i := i + 1
          ny := clampEdge ny height } := by
      simp only [tap, clamp_eq_clampEdge _ _ hw, clamp_eq_clampEdge _ _ hh, sub_add_cancel]
      congr 6
      ring
    rw [hstep, ih]
    have e1 : i + 1 - (lo + 1) = i - lo := by ring
    have e2 : i + 1 + ((hi + 1 - (lo + 1)).toNat : Int) = i + ((hi + 1 - lo).toNat : Int) := by
      omega
    simp only [e1, e2, clampEdge_idem _ _ hh, if_pos hle, ite_self]

end Smooth

namespace Smooth

/-- The loop over `v`: every row adds its taps, and the kernel index counts the taps
of the rows before it. -/
theorem foldl_tapRow (inPtr : Int → Nat) (kernel : Int → FP) (width height z : Int)
    (inIncX inIncY inIncZ : Int) (uc : Int) (x y : Int) (hw : 0 ≤ width) (hh : 0 ≤ height)
    (huc : 0 ≤ uc) (hi : Int) (lo : Int) : ∀ (s : FP) (i : Int),
    (upTo lo hi).foldl (tapRow inPtr kernel width height z inIncX inIncY inIncZ uc x y) (s, i) =
      ((upTo lo hi).foldl (fun acc v =>
        (upTo (-uc) uc).foldl (fun acc u =>
          FP.add binary64 acc
            (FP.mul binary32
              (FP.ofInt binary32
                ((inPtr (clampEdge (x + u) width * inIncX + clampEdge (y + v) height * inIncY
                  + z * inIncZ) : Nat) : Int))
              (kernel (i + (v - lo) * (2 * uc + 1) + (u + uc))))) acc) s,
       i + ((hi + 1 - lo).toNat : Int) * (2 * uc + 1)) := by
  induction lo using upTo_induction hi with
  | hnil lo hlt =>
    intro s i
    have h0 : (hi + 1 - lo).toNat = 0 := by omega
    simp [upTo_nil hlt, h0]
  | hcons lo hle ih =>
    intro s i
    rw [upTo_cons hle, List.foldl_cons, List.foldl_cons]
    have hstep : tapRow inPtr kernel width height z inIncX inIncY inIncZ uc x y (s, i) lo =
        ((upTo (-uc) uc).foldl (fun acc u =>
          FP.add binary64 acc
            (FP.mul binary32
              (FP.ofInt binary32
                ((inPtr (clampEdge (x + u) width * inIncX + clampEdge (y + lo) height * inIncY
                  + z * inIncZ) : Nat) : Int))
              (kernel (i + (lo - lo) * (2 * uc + 1) + (u + uc))))) s,
         i + (2 * uc + 1)) := by
      simp only [tapRow, foldl_tap inPtr kernel width height z inIncX inIncY inIncZ x hw hh]
      have e : ((uc + 1 - -uc).toNat : Int) = 2 * uc + 1 := by omega
      rw [e]
      refine Prod.ext ?_ rfl
      simp only
      congr 1
      funext acc u
      congr 3
      ring
    rw [hstep, ih]
    refine Prod.ext ?_ ?_
    · simp only
      congr 1
      funext acc v
      congr 1
      funext acc u
      congr 3
      ring
    · simp only
      have e : ((hi + 1 - lo).toNat : Int) = ((hi + 1 - (lo + 1)).toNat : Int) + 1 := by omega
      rw [e]
      ring

/-- The footprint loops of `smooth` compute the contract's clamped weighted sum. -/
theorem pixelSum_eq (inPtr : Int → Nat) (kernel : Int → FP) (width height z : Int)
    (inIncX inIncY inIncZ : Int) (h : Int) (x y : Int) (hw : 0 ≤ width) (hh : 0 ≤ height)
    (hh0 : 0 ≤ h) :
    pixelSum inPtr kernel width height z inIncX inIncY inIncZ h h x y =
      clampedWeightedSum inPtr kernel width height z inIncX inIncY inIncZ h (2 * h + 1) x y := by
  unfold pixelSum clampedWeightedSum
  rw [foldl_tapRow inPtr kernel width height z inIncX inIncY inIncZ h x y hw hh hh0]
  simp only
  congr 1
  funext acc v
  congr 1
  funext acc u
  congr 3
  ring

theorem tdiv_odd (h : Int) (hh : 0 ≤ h) : Int.tdiv (2 * h + 1) 2 = h := by
  rw [Int.tdiv_eq_ediv (by omega) (by omega)]
  omega

end Smooth

namespace Smooth

/-! ## The pixel loops of `smooth` -/

theorem mem_extentPixels {xmin xmax ymin ymax : Int} {p : Int × Int} :
    p ∈ extentPixels xmin xmax ymin ymax ↔
      (xmin ≤ p.1 ∧ p.1 ≤ xmax) ∧ (ymin ≤ p.2 ∧ p.2 ≤ ymax) := by
  obtain ⟨x, y⟩ := p
  simp only [extentPixels, List.mem_flatMap, List.mem_map, mem_upTo, Prod.mk.injEq]
  constructor
  · rintro ⟨y', hy, x', hx, rfl, rfl⟩
    exact ⟨hx, hy⟩
  · rintro ⟨hx, hy⟩
    exact ⟨y, hy, x, hx, rfl, rfl⟩

/-- Two nested loops are one loop over the pairs of their counters. -/
theorem foldl_nested {σ : Type} (g : σ → Int → Int → σ) (xs : List Int) :
    ∀ (ys : List Int) (s : σ),
    ys.foldl (fun s y => xs.foldl (fun s x => g s x y) s) s =
      (ys.flatMap (fun y => xs.map (fun x => (x, y)))).foldl (fun s p => g s p.1 p.2) s := by
  intro ys
  induction ys with
  | nil => intro s; rfl
  | cons y ys ih =>
    intro s
    rw [List.foldl_cons, ih, List.flatMap_cons, List.foldl_append, List.foldl_map]

/-- A loop of stores leaves the value of the stores to a cell in that cell, when
they all store the same value, and leaves the other cells alone. -/
theorem foldl_update {α : Type} (key : α → Int) (val : α → Nat) (l : List α) :
    ∀ (out : Int → Nat) (k : Int) (w : Nat),
    (∀ b ∈ l, key b = k → val b = w) → ((∃ b ∈ l, key b = k) ∨ out k = w) →
    (l.foldl (fun o a => Function.update o (key a) (val a)) out) k = w := by
  induction l with
  | nil =>
    intro out k w _ h
    rcases h with ⟨b, hb, _⟩ | h
    · simp at hb
    · simpa using h
  | cons a l ih =>
    intro out k w hval h
    rw [List.foldl_cons]
    apply ih
    · intro b hb
      exact hval b (List.mem_cons_of_mem _ hb)
    · by_cases hk : key a = k
      · right
        rw [← hk, Function.update_same, hval a (List.mem_cons_self _ _) hk]
      · rcases h with ⟨b, hb, hbk⟩ | h
        · rcases List.mem_cons.mp hb with rfl | hb
          · exact absurd hbk hk
          · exact Or.inl ⟨b, hb, hbk⟩
        · right
          rw [Function.update_noteq (Ne.symm hk)]
          exact h

/-- The output of `smooth` is the result of one store per pixel of the extent. -/
theorem smooth_out (inPtr : Int → Nat) (outPtr : Int → Nat) (ext : Fin 6 → Int)
    (kernel : Int → FP) (scale : FP) (size : Int)
    (inIncX inIncY inIncZ outIncX outIncY outIncZ : Int) :
    (smooth inPtr outPtr ext kernel scale size inIncX inIncY inIncZ outIncX outIncY outIncZ).out =
      (extentPixels (ext 0) (ext 1) (ext 2) (ext 3)).foldl (fun o p =>
        Function.update o (ext 4 * outIncZ + p.2 * outIncY + p.1 * outIncX)
          (FP.toUChar (FP.mul binary64 scale
            (pixelSum inPtr kernel (ext 1) (ext 3) (ext 4) inIncX inIncY inIncZ
              (Int.tdiv size 2) (Int.tdiv size 2) p.1 p.2)))) outPtr := by
  simp only [smooth, extentPixels]
  exact foldl_nested (fun (o : Int → Nat) x y => Function.update o (ext 4 * outIncZ + y * outIncY + x * outIncX)
    (FP.toUChar (FP.mul binary64 scale
      (pixelSum inPtr kernel (ext 1) (ext 3) (ext 4) inIncX inIncY inIncZ
        (Int.tdiv size 2) (Int.tdiv size 2) x y)))) _ _ _

/-- The cell of a pixel of the extent holds, after the call, the scaled sum of that
pixel, when no other pixel of the extent is stored at the same offset. -/
theorem smooth_out_pixel (inPtr : Int → Nat) (outPtr : Int → Nat) (ext : Fin 6 → Int)
    (kernel : Int → FP) (scale : FP) (size : Int)
    (inIncX inIncY inIncZ outIncX outIncY outIncZ : Int) (x y : Int)
    (hx : ext 0 ≤ x ∧ x ≤ ext 1) (hy : ext 2 ≤ y ∧ y ≤ ext 3)
    (hinj : ∀ x' y', ext 0 ≤ x' ∧ x' ≤ ext 1 → ext 2 ≤ y' ∧ y' ≤ ext 3 →
      x' * outIncX + y' * outIncY = x * outIncX + y * outIncY → x' = x ∧ y' = y) :
    (smooth inPtr outPtr ext kernel scale size inIncX inIncY inIncZ outIncX outIncY outIncZ).out
        (x * outIncX + y * outIncY + ext 4 * outIncZ) =
      FP.toUChar (FP.mul binary64 scale
        (pixelSum inPtr kernel (ext 1) (ext 3) (ext 4) inIncX inIncY inIncZ
          (Int.tdiv size 2) (Int.tdiv size 2) x y)) := by
  rw [smooth_out]
  apply foldl_update (fun p : Int × Int => ext 4 * outIncZ + p.2 * outIncY + p.1 * outIncX)
  · intro p hp hk
    rw [mem_extentPixels] at hp
    obtain ⟨h1, h2⟩ := hinj p.1 p.2 hp.1 hp.2 (by linarith)
    rw [h1, h2]
  · left
    exact ⟨(x, y), mem_extentPixels.mpr ⟨hx, hy⟩, by simp only; ring⟩

end Smooth

namespace Smooth

/-! ## The contract of `smooth` -/

/-- The output cell of a pixel of the extent, for an odd size, in terms of the
clamped weighted sum. -/
theorem smooth_pixel_closed_form (inPtr : Int → Nat) (outPtr : Int → Nat)
    (ext : Fin 6 → Int) (kernel : Int → FP) (scale : FP) (h : Int)
    (inIncX inIncY inIncZ outIncX outIncY outIncZ : Int) (x y : Int)
    (hh : 0 ≤ h) (hxe : 0 ≤ ext 0 ∧ ext 0 ≤ ext 1) (hye : 0 ≤ ext 2 ∧ ext 2 ≤ ext 3)
    (hinj : ∀ x1 y1 x2 y2, ext 0 ≤ x1 ∧ x1 ≤ ext 1 → ext 2 ≤ y1 ∧ y1 ≤ ext 3 →
      ext 0 ≤ x2 ∧ x2 ≤ ext 1 → ext 2 ≤ y2 ∧ y2 ≤ ext 3 →
      x1 * outIncX + y1 * outIncY = x2 * outIncX + y2 * outIncY → x1 = x2 ∧ y1 = y2)
    (hx : ext 0 ≤ x ∧ x ≤ ext 1) (hy : ext 2 ≤ y ∧ y ≤ ext 3) :
    (smooth inPtr outPtr ext kernel scale (2 * h + 1)
        inIncX inIncY inIncZ outIncX outIncY outIncZ).out
        (x * outIncX + y * outIncY + ext 4 * outIncZ) =
      FP.toUChar (FP.mul binary64 scale
        (clampedWeightedSum inPtr kernel (ext 1) (ext 3) (ext 4) inIncX inIncY inIncZ
          h (2 * h + 1) x y)) := by
  rw [smooth_out_pixel inPtr outPtr ext kernel scale (2 * h + 1) inIncX inIncY inIncZ
    outIncX outIncY outIncZ x y hx hy (fun x' y' hx' hy' he => hinj x' y' x y hx' hy' hx hy he),
    tdiv_odd h hh, pixelSum_eq _ _ _ _ _ _ _ _ _ _ _ (by omega) (by omega) hh]

end Smooth

namespace Smooth

/-! ## The reads of the footprint loops -/

/-- The loop over `u` and its reads, side by side: the reads recorded are those
whose terms were added to `sum`. -/
theorem foldl_tap_reads (inPtr : Int → Nat) (kernel : Int → FP) (width height z : Int)
    (inIncX inIncY inIncZ : Int) (x : Int) (l : List Int) :
    ∀ (rs : List TapRead) (i ny : Int),
    l.foldl (tap inPtr kernel width height z inIncX inIncY inIncZ x)
        { sum := rs.foldl (tapTerm inPtr kernel z inIncX inIncY inIncZ) (FP.fin 0)
          i := i, ny := ny } =
      { sum := (l.foldl (tapReads width height x) (rs, i, ny)).1.foldl
          (tapTerm inPtr kernel z inIncX inIncY inIncZ) (FP.fin 0)
        i := (l.foldl (tapReads width height x) (rs, i, ny)).2.1
        ny := (l.foldl (tapReads width height x) (rs, i, ny)).2.2 } := by
  induction l with
  | nil => intro rs i ny; rfl
  | cons u l ih =>
    intro rs i ny
    rw [List.foldl_cons, List.foldl_cons]
    have hstep : tap inPtr kernel width height z inIncX inIncY inIncZ x
        { sum := rs.foldl (tapTerm inPtr kernel z inIncX inIncY inIncZ) (FP.fin 0)
          i := i, ny := ny } u =
        { sum := (tapReads width height x (rs, i, ny) u).1.foldl
            (tapTerm inPtr kernel z inIncX inIncY inIncZ) (FP.fin 0)
          i := (tapReads width height x (rs, i, ny) u).2.1
          ny := (tapReads width height x (rs, i, ny) u).2.2 } := by
      simp only [tap, tapReads, List.foldl_append, List.foldl_cons, List.foldl_nil, tapTerm]
    rw [hstep]
    exact ih _ _ _

/-- The loop over `v` and its reads, side by side. -/
theorem foldl_tapRow_reads (inPtr : Int → Nat) (kernel : Int → FP) (width height z : Int)
    (inIncX inIncY inIncZ : Int) (uc : Int) (x y : Int) (l : List Int) :
    ∀ (rs : List TapRead) (i : Int),
    l.foldl (tapRow inPtr kernel width height z inIncX inIncY inIncZ uc x y)
        (rs.foldl (tapTerm inPtr kernel z inIncX inIncY inIncZ) (FP.fin 0), i) =
      ((l.foldl (rowReads width height uc x y) (rs, i)).1.foldl
          (tapTerm inPtr kernel z inIncX inIncY inIncZ) (FP.fin 0),
       (l.foldl (rowReads width height uc x y) (rs, i)).2) := by
  induction l with
  | nil => intro rs i; rfl
  | cons v l ih =>
    intro rs i
    rw [List.foldl_cons, List.foldl_cons]
    have hstep : tapRow inPtr kernel width height z inIncX inIncY inIncZ uc x y
        (rs.foldl (tapTerm inPtr kernel z inIncX inIncY inIncZ) (FP.fin 0), i) v =
        ((rowReads width height uc x y (rs, i) v).1.foldl
            (tapTerm inPtr kernel z inIncX inIncY inIncZ) (FP.fin 0),
         (rowReads width height uc x y (rs, i) v).2) := by
      simp only [tapRow, rowReads, foldl_tap_reads]
    rw [hstep]
    exact ih _ _

/-- The sum `smooth` accumulates for a pixel is the sum of the terms of the reads
of its footprint loops, in program order. -/
theorem pixelSum_eq_reads (inPtr : Int → Nat) (kernel : Int → FP) (width height z : Int)
    (inIncX inIncY inIncZ : Int) (uc vc : Int) (x y : Int) :
    pixelSum inPtr kernel width height z inIncX inIncY inIncZ uc vc x y =
      (footprintReads width height uc vc x y).foldl
        (tapTerm inPtr kernel z inIncX inIncY inIncZ) (FP.fin 0) := by
  unfold pixelSum footprintReads
  have h := foldl_tapRow_reads inPtr kernel width height z inIncX inIncY inIncZ uc x y
    (upTo (-vc) vc) [] 0
  simp only [List.foldl_nil] at h
  rw [h]

end Smooth

namespace Smooth

/-- The reads of the loop over `u`, in closed form. -/
theorem foldl_tapReads (width height : Int) (x : Int) (hw : 0 ≤ width) (hh : 0 ≤ height)
    (hi : Int) (lo : Int) : ∀ (rs : List TapRead) (i ny : Int),
    (upTo lo hi).foldl (tapReads width height x) (rs, i, ny) =
      (rs ++ (upTo lo hi).map (fun u =>
          ({ nx := clampEdge (x + u) width, ny := clampEdge ny height, i := i - lo + u } :
            TapRead)),
       i + (hi + 1 - lo).toNat,
       if lo ≤ hi then clampEdge ny height else ny) := by
  induction lo using upTo_induction hi with
  | hnil lo hlt =>
    intro rs i ny
    have h0 : (hi + 1 - lo).toNat = 0 := by omega
    simp [upTo_nil hlt, h0, not_le.mpr hlt]
  | hcons lo hle ih =>
    intro rs i ny
    rw [upTo_cons hle, List.foldl_cons, List.map_cons]
    have hstep : tapReads width height x (rs, i, ny) lo =
        (rs ++ [({ nx := clampEdge (x + lo) width, ny := clampEdge ny height,
                   i := i - lo + lo } : TapRead)], i + 1, clampEdge ny height) := by
      simp only [tapReads, clamp_eq_clampEdge _ _ hw, clamp_eq_clampEdge _ _ hh, sub_add_cancel]
    rw [hstep, ih]
    have e1 : i + 1 - (lo + 1) = i - lo := by ring
    have e2 : i + 1 + ((hi + 1 - (lo + 1)).toNat : Int) = i + ((hi + 1 - lo).toNat : Int) := by
      omega
    simp only [e1, e2, clampEdge_idem _ _ hh, if_pos hle, ite_self, List.append_assoc,
      List.singleton_append]

/-- The reads of the loop over `v`, in closed form. -/
theorem foldl_rowReads (width height : Int) (uc : Int) (x y : Int) (hw : 0 ≤ width)
    (hh : 0 ≤ height) (huc : 0 ≤ uc) (hi : Int) (lo : Int) : ∀ (rs : List TapRead) (i : Int),
    (upTo lo hi).foldl (rowReads width height uc x y) (rs, i) =
      (rs ++ (upTo lo hi).flatMap (fun v => (upTo (-uc) uc).map (fun u =>
          ({ nx := clampEdge (x + u) width, ny := clampEdge (y + v) height,
             i := i + (v - lo) * (2 * uc + 1) + (u + uc) } : TapRead))),
       i + ((hi + 1 - lo).toNat : Int) * (2 * uc + 1)) := by
  induction lo using upTo_induction hi with
  | hnil lo hlt =>
    intro rs i
    have h0 : (hi + 1 - lo).toNat = 0 := by omega
    simp [upTo_nil hlt, h0]
  | hcons lo hle ih =>
    intro rs i
    rw [upTo_cons hle, List.foldl_cons, List.flatMap_cons]
    have hstep : rowReads width height uc x y (rs, i) lo =
        (rs ++ (upTo (-uc) uc).map (fun u =>
          ({ nx := clampEdge (x + u) width, ny := clampEdge (y + lo) height,
             i := i + (lo - lo) * (2 * uc + 1) + (u + uc) } : TapRead)),
         i + (2 * uc + 1)) := by
      simp only [rowReads, foldl_tapReads width height x hw hh]
      have e : ((uc + 1 - -uc).toNat : Int) = 2 * uc + 1 := by omega
      rw [e]
      refine Prod.ext ?_ rfl
      simp only
      congr 2
      funext u
      congr 1
      ring
    rw [hstep, ih]
    refine Prod.ext ?_ ?_
    · simp only [List.append_assoc]
      congr 3
      funext v
      congr 1
      funext u
      congr 1
      ring
    · simp only
      have e : ((hi + 1 - lo).toNat : Int) = ((hi + 1 - (lo + 1)).toNat : Int) + 1 := by omega
      rw [e]
      ring

/-- The reads of the footprint loops of a pixel, in closed form: for `v` and then
`u` from `-half` to `half`, the sample at the clamped coordinates and the kernel
index `(v+vc)*(2*uc+1) + (u+uc)`. -/
theorem footprintReads_eq (width height : Int) (uc vc : Int) (x y : Int) (hw : 0 ≤ width)
    (hh : 0 ≤ height) (huc : 0 ≤ uc) :
    footprintReads width height uc vc x y =
      (upTo (-vc) vc).flatMap (fun v => (upTo (-uc) uc).map (fun u =>
        ({ nx := clampEdge (x + u) width, ny := clampEdge (y + v) height,
           i := (v + vc) * (2 * uc + 1) + (u + uc) } : TapRead))) := by
  unfold footprintReads
  rw [foldl_rowReads width height uc x y hw hh huc]
  simp only [List.nil_append]
  congr 1
  funext v
  congr 1
  funext u
  congr 1
  ring

end Smooth

namespace Smooth

end Smooth

namespace Smooth

/-! ## Rounding: the exponent of a rational -/

theorem bitLenAux_spec (fuel : Nat) : ∀ n : Nat, n ≤ fuel → 0 < n →
    0 < bitLenAux fuel n ∧ 2 ^ (bitLenAux fuel n - 1) ≤ n ∧ n < 2 ^ bitLenAux fuel n := by
  induction fuel with
  | zero => intro n h1 h2; omega
  | succ fuel ih =>
    intro n hn hpos
    have hne : n ≠ 0 := by omega
    simp only [bitLenAux, if_neg hne]
    refine ⟨by omega, ?_⟩
    rcases Nat.eq_zero_or_pos (n / 2) with h0 | hp
    · have h1 : n = 1 := by omega
      subst h1
      cases fuel <;> simp [bitLenAux]
    · obtain ⟨hb, hlo, hhi⟩ := ih (n / 2) (by omega) hp
      obtain ⟨b, hb'⟩ : ∃ b, bitLenAux fuel (n / 2) = b + 1 := ⟨_, (Nat.succ_pred_eq_of_pos hb).symm⟩
      rw [hb'] at hlo hhi ⊢
      simp only [Nat.add_sub_cancel] at hlo ⊢
      rw [pow_succ] at hhi ⊢
      constructor <;> omega

theorem bitLen_spec (n : Nat) (hn : 0 < n) :
    0 < bitLen n ∧ 2 ^ (bitLen n - 1) ≤ n ∧ n < 2 ^ bitLen n :=
  bitLenAux_spec n n le_rfl hn

theorem two_zpow_pos (e : Int) : (0 : ℚ) < (2 : ℚ) ^ e := zpow_pos (by norm_num) e

/-- The exponent brackets the absolute value between two consecutive powers of 2. -/
theorem ilog2_spec (q : ℚ) (hq : q ≠ 0) :
    (2 : ℚ) ^ ilog2 q ≤ |q| ∧ |q| < (2 : ℚ) ^ (ilog2 q + 1) := by
  have hnum : 0 < q.num.natAbs := Int.natAbs_pos.mpr (Rat.num_ne_zero.mpr hq)
  obtain ⟨ha, halo, hahi⟩ := bitLen_spec _ hnum
  obtain ⟨hb, hblo, hbhi⟩ := bitLen_spec _ q.den_pos
  obtain ⟨a, ha'⟩ : ∃ a, bitLen q.num.natAbs = a + 1 := ⟨_, (Nat.succ_pred_eq_of_pos ha).symm⟩
  obtain ⟨b, hb'⟩ : ∃ b, bitLen q.den = b + 1 := ⟨_, (Nat.succ_pred_eq_of_pos hb).symm⟩
  rw [ha'] at halo hahi
  rw [hb'] at hblo hbhi
  simp only [Nat.add_sub_cancel] at halo hblo
  have habs : |q| = (q.num.natAbs : ℚ) / (q.den : ℚ) := by
    conv_lhs => rw [← Rat.num_div_den q]
    rw [abs_div, Nat.abs_cast]
    congr 1
    rw [Nat.cast_natAbs, Int.cast_abs]
  have hden : (0 : ℚ) < (q.den : ℚ) := by exact_mod_cast q.den_pos
  have h1 : ((2 : ℚ) ^ a) ≤ (q.num.natAbs : ℚ) := by exact_mod_cast halo
  have h2 : (q.num.natAbs : ℚ) < (2 : ℚ) ^ (a + 1) := by exact_mod_cast hahi
  have h3 : ((2 : ℚ) ^ b) ≤ (q.den : ℚ) := by exact_mod_cast hblo
  have h4 : (q.den : ℚ) < (2 : ℚ) ^ (b + 1) := by exact_mod_cast hbhi
  have e0 : ((bitLen q.num.natAbs : ℤ) - (bitLen q.den : ℤ)) = (a : ℤ) - (b : ℤ) := by
    rw [ha', hb']; push_cast; ring
  have two_ne : (2 : ℚ) ≠ 0 := by norm_num
  -- |q| < 2 ^ (a - b + 1)
  have hup : |q| < (2 : ℚ) ^ ((a : ℤ) - (b : ℤ) + 1) := by
    rw [habs, div_lt_iff₀ hden]
    have : (2 : ℚ) ^ ((a : ℤ) - (b : ℤ) + 1) = (2 : ℚ) ^ (a + 1) / (2 : ℚ) ^ b := by
      rw [show ((a : ℤ) - (b : ℤ) + 1) = ((a + 1 : ℕ) : ℤ) - ((b : ℕ) : ℤ) by push_cast; ring,
        zpow_sub₀ two_ne, zpow_natCast, zpow_natCast]
    rw [this, div_mul_eq_mul_div, lt_div_iff₀ (by positivity)]
    calc (q.num.natAbs : ℚ) * 2 ^ b < 2 ^ (a + 1) * 2 ^ b := by
          apply mul_lt_mul_of_pos_right h2 (by positivity)
      _ ≤ 2 ^ (a + 1) * (q.den : ℚ) := by
          apply mul_le_mul_of_nonneg_left h3 (by positivity)
  -- 2 ^ (a - b - 1) ≤ |q|
  have hdown : (2 : ℚ) ^ ((a : ℤ) - (b : ℤ) - 1) ≤ |q| := by
    rw [habs, le_div_iff₀ hden]
    have : (2 : ℚ) ^ ((a : ℤ) - (b : ℤ) - 1) = (2 : ℚ) ^ a / (2 : ℚ) ^ (b + 1) := by
      rw [show ((a : ℤ) - (b : ℤ) - 1) = ((a : ℕ) : ℤ) - ((b + 1 : ℕ) : ℤ) by push_cast; ring,
        zpow_sub₀ two_ne, zpow_natCast, zpow_natCast]
    rw [this, div_mul_eq_mul_div, div_le_iff₀ (by positivity)]
    calc (2 : ℚ) ^ a * (q.den : ℚ) ≤ 2 ^ a * 2 ^ (b + 1) := by
          apply mul_le_mul_of_nonneg_left h4.le (by positivity)
      _ ≤ (q.num.natAbs : ℚ) * 2 ^ (b + 1) := by
          apply mul_le_mul_of_nonneg_right h1 (by positivity)
  unfold ilog2
  simp only [e0]
  split_ifs with hlt
  · refine ⟨hdown, ?_⟩
    rw [sub_add_cancel]
    exact hlt
  · exact ⟨not_lt.mp hlt, hup⟩

/-- The exponent is determined by the bracket. -/
theorem ilog2_unique (q : ℚ) (e : Int) (hlo : (2 : ℚ) ^ e ≤ |q|) (hhi : |q| < (2 : ℚ) ^ (e + 1)) :
    ilog2 q = e := by
  have hq : q ≠ 0 := by
    rintro rfl
    rw [abs_zero] at hlo
    exact absurd hlo (not_le.mpr (two_zpow_pos e))
  obtain ⟨h1, h2⟩ := ilog2_spec q hq
  have a1 : (2 : ℚ) ^ e < (2 : ℚ) ^ (ilog2 q + 1) := lt_of_le_of_lt hlo h2
  have a2 : (2 : ℚ) ^ ilog2 q < (2 : ℚ) ^ (e + 1) := lt_of_le_of_lt h1 hhi
  rw [zpow_lt_zpow_iff_right₀ (by norm_num : (1 : ℚ) < 2)] at a1 a2
  omega

theorem ilog2_mono (a b : ℚ) (ha : a ≠ 0) (hab : |a| ≤ |b|) : ilog2 a ≤ ilog2 b := by
  have hb : b ≠ 0 := by
    rintro rfl
    rw [abs_zero] at hab
    exact ha (abs_eq_zero.mp (le_antisymm hab (abs_nonneg a)))
  obtain ⟨h1, _⟩ := ilog2_spec a ha
  obtain ⟨_, h4⟩ := ilog2_spec b hb
  have : (2 : ℚ) ^ ilog2 a < (2 : ℚ) ^ (ilog2 b + 1) := lt_of_le_of_lt (h1.trans hab) h4
  rw [zpow_lt_zpow_iff_right₀ (by norm_num : (1 : ℚ) < 2)] at this
  omega

theorem ilog2_neg (q : ℚ) : ilog2 (-q) = ilog2 q := by
  unfold ilog2
  simp only [Rat.neg_num, Int.natAbs_neg, Rat.neg_den, abs_neg]

end Smooth

namespace Smooth

/-! ## Rounding: nearest integer, ties to even -/

theorem rne_intCast (n : Int) : rne (n : ℚ) = n := by
  simp [rne]

theorem rne_cases (x : ℚ) : rne x = ⌊x⌋ ∨ rne x = ⌊x⌋ + 1 := by
  unfold rne
  simp only
  split_ifs <;> simp

theorem rne_abs_sub_le (x : ℚ) : |(rne x : ℚ) - x| ≤ 1 / 2 := by
  have h1 := Int.floor_le x
  have h2 := Int.lt_floor_add_one x
  unfold rne
  simp only
  rw [abs_le]
  split_ifs with c1 c2 c3
  · constructor <;> linarith
  · push_cast
    constructor <;> linarith
  · constructor <;> linarith
  · push_cast
    constructor <;> linarith

theorem rne_mono {a b : ℚ} (hab : a ≤ b) : rne a ≤ rne b := by
  have hfl : ⌊a⌋ ≤ ⌊b⌋ := Int.floor_mono hab
  rcases lt_or_eq_of_le hfl with hlt | heq
  · have h1 : rne a ≤ ⌊a⌋ + 1 := by rcases rne_cases a with h | h <;> omega
    have h2 : ⌊b⌋ ≤ rne b := by rcases rne_cases b with h | h <;> omega
    omega
  · unfold rne
    simp only [heq]
    split_ifs <;> first | omega | (exfalso; linarith)

theorem rne_neg (x : ℚ) : rne (-x) = -rne x := by
  have h1 := Int.floor_le x
  have h2 := Int.lt_floor_add_one x
  by_cases hint : (⌊x⌋ : ℚ) = x
  · rw [← hint, ← Int.cast_neg, rne_intCast, rne_intCast]
  · have hlt : (⌊x⌋ : ℚ) < x := lt_of_le_of_ne h1 hint
    have hf : ⌊-x⌋ = -⌊x⌋ - 1 := by
      rw [Int.floor_eq_iff]
      push_cast
      constructor <;> linarith
    unfold rne
    simp only [hf]
    push_cast
    split_ifs <;> first | omega | (exfalso; linarith)

theorem rne_le_of_le_intCast {x : ℚ} {n : Int} (h : x ≤ n) : rne x ≤ n := by
  have := rne_mono h
  rwa [rne_intCast] at this

theorem le_rne_of_intCast_le {x : ℚ} {n : Int} (h : (n : ℚ) ≤ x) : n ≤ rne x := by
  have := rne_mono h
  rwa [rne_intCast] at this

end Smooth

namespace Smooth

/-! ## Rounding to a format -/

/-- Exponent of the grid spacing of the format at `q`. -/
theorem roundQ_def (f : Fmt) (q : ℚ) (hq : q ≠ 0) :
    f.roundQ q = (rne (q / (2 : ℚ) ^ (max (ilog2 q) f.emin - ((f.prec : ℤ) - 1))) : ℚ)
      * (2 : ℚ) ^ (max (ilog2 q) f.emin - ((f.prec : ℤ) - 1)) := by
  simp [Fmt.roundQ, hq]

theorem roundQ_zero (f : Fmt) : f.roundQ 0 = 0 := by
  simp [Fmt.roundQ]

theorem roundQ_neg (f : Fmt) (q : ℚ) : f.roundQ (-q) = -f.roundQ q := by
  by_cases hq : q = 0
  · simp [hq, roundQ_zero]
  · rw [roundQ_def f q hq, roundQ_def f (-q) (neg_ne_zero.mpr hq), ilog2_neg, neg_div, rne_neg]
    push_cast
    ring

theorem roundQ_nonneg (f : Fmt) (q : ℚ) (hq : 0 ≤ q) : 0 ≤ f.roundQ q := by
  by_cases h0 : q = 0
  · simp [h0, roundQ_zero]
  · rw [roundQ_def f q h0]
    apply mul_nonneg _ (two_zpow_pos _).le
    have : (0 : ℤ) ≤ rne (q / (2 : ℚ) ^ (max (ilog2 q) f.emin - ((f.prec : ℤ) - 1))) := by
      apply le_rne_of_intCast_le
      simpa using div_nonneg hq (two_zpow_pos _).le
    exact_mod_cast this

/-- A value `m * 2 ^ k` with `|m| < 2 ^ prec` and `k` not below the exponent of the
smallest spacing is on the grid of the format: rounding leaves it unchanged. -/
theorem roundQ_grid (f : Fmt) (m k : Int) (hm : |m| < 2 ^ f.prec)
    (hk : f.emin - ((f.prec : ℤ) - 1) ≤ k) :
    f.roundQ ((m : ℚ) * (2 : ℚ) ^ k) = (m : ℚ) * (2 : ℚ) ^ k := by
  have two_ne : (2 : ℚ) ≠ 0 := by norm_num
  by_cases hm0 : m = 0
  · simp [hm0, roundQ_zero]
  have hq : (m : ℚ) * (2 : ℚ) ^ k ≠ 0 :=
    mul_ne_zero (by exact_mod_cast hm0) (two_zpow_pos k).ne'
  rw [roundQ_def f _ hq]
  set q : ℚ := (m : ℚ) * (2 : ℚ) ^ k with hqdef
  obtain ⟨hlo, _⟩ := ilog2_spec q hq
  -- the exponent of q is below prec + k
  have habs : |q| < (2 : ℚ) ^ ((f.prec : ℤ) + k) := by
    rw [hqdef, abs_mul, abs_of_pos (two_zpow_pos k), zpow_add₀ two_ne, zpow_natCast]
    apply mul_lt_mul_of_pos_right _ (two_zpow_pos k)
    have : ((|m| : ℤ) : ℚ) < ((2 ^ f.prec : ℤ) : ℚ) := by exact_mod_cast hm
    simpa using this
  have he : ilog2 q < (f.prec : ℤ) + k := by
    have := lt_of_le_of_lt hlo habs
    rwa [zpow_lt_zpow_iff_right₀ (by norm_num : (1 : ℚ) < 2)] at this
  set t : ℤ := max (ilog2 q) f.emin - ((f.prec : ℤ) - 1) with ht
  have htk : t ≤ k := by
    rcases max_cases (ilog2 q) f.emin with ⟨h, _⟩ | ⟨h, _⟩ <;> rw [ht, h] <;> omega
  obtain ⟨d, hd⟩ : ∃ d : ℕ, k = t + d := ⟨(k - t).toNat, by omega⟩
  have hdiv : q / (2 : ℚ) ^ t = ((m * 2 ^ d : ℤ) : ℚ) := by
    rw [hqdef, hd, zpow_add₀ two_ne, zpow_natCast]
    push_cast
    field_simp
    ring
  rw [hdiv, rne_intCast, hqdef, hd, zpow_add₀ two_ne, zpow_natCast]
  push_cast
  ring

/-- An integer of magnitude below `2 ^ prec` is on the grid of the format. -/
theorem roundQ_intCast (f : Fmt) (n : Int) (hn : |n| < 2 ^ f.prec)
    (hf : f.emin - ((f.prec : ℤ) - 1) ≤ 0) : f.roundQ (n : ℚ) = n := by
  have := roundQ_grid f n 0 hn hf
  simpa using this

end Smooth

namespace Smooth

theorem two_zpow_natCast_eq (p : Nat) : (2 : ℚ) ^ (p : ℤ) = (((2 : ℤ) ^ p : ℤ) : ℚ) := by
  rw [zpow_natCast]
  push_cast
  rfl

/-- A positive value rounds to at most the end of its binade. -/
theorem roundQ_le_binade (f : Fmt) (q : ℚ) (hq : 0 < q) :
    f.roundQ q ≤ (2 : ℚ) ^ (max (ilog2 q) f.emin + 1) := by
  have two_ne : (2 : ℚ) ≠ 0 := by norm_num
  rw [roundQ_def f q hq.ne']
  set E : ℤ := max (ilog2 q) f.emin with hE
  set t : ℤ := E - ((f.prec : ℤ) - 1) with ht
  obtain ⟨_, hhi⟩ := ilog2_spec q hq.ne'
  rw [abs_of_pos hq] at hhi
  have hqE : q ≤ (2 : ℚ) ^ (E + 1) :=
    hhi.le.trans (zpow_le_zpow_right₀ (by norm_num) (by rw [hE]; have := le_max_left (ilog2 q) f.emin; omega))
  have hsplit : (2 : ℚ) ^ (E + 1) = (2 : ℚ) ^ (f.prec : ℤ) * (2 : ℚ) ^ t := by
    rw [← zpow_add₀ two_ne]
    congr 1
    rw [ht]
    ring
  have hdiv : q / (2 : ℚ) ^ t ≤ (((2 : ℤ) ^ f.prec : ℤ) : ℚ) := by
    rw [div_le_iff₀ (two_zpow_pos t), ← two_zpow_natCast_eq, ← hsplit]
    exact hqE
  have hr := rne_le_of_le_intCast hdiv
  have hr' : (rne (q / (2 : ℚ) ^ t) : ℚ) ≤ (((2 : ℤ) ^ f.prec : ℤ) : ℚ) := by exact_mod_cast hr
  rw [hsplit, two_zpow_natCast_eq]
  exact mul_le_mul_of_nonneg_right hr' (two_zpow_pos t).le

/-- A positive normal value rounds to at least the start of its binade. -/
theorem binade_le_roundQ (f : Fmt) (hp : 1 ≤ f.prec) (q : ℚ) (hq : 0 < q)
    (hn : f.emin ≤ ilog2 q) : (2 : ℚ) ^ ilog2 q ≤ f.roundQ q := by
  have two_ne : (2 : ℚ) ≠ 0 := by norm_num
  rw [roundQ_def f q hq.ne', max_eq_left hn]
  set t : ℤ := ilog2 q - ((f.prec : ℤ) - 1) with ht
  obtain ⟨hlo, _⟩ := ilog2_spec q hq.ne'
  rw [abs_of_pos hq] at hlo
  obtain ⟨p, hpp⟩ : ∃ p : ℕ, f.prec = p + 1 := ⟨f.prec - 1, by omega⟩
  have hsplit : (2 : ℚ) ^ ilog2 q = (2 : ℚ) ^ (p : ℤ) * (2 : ℚ) ^ t := by
    rw [← zpow_add₀ two_ne]
    congr 1
    rw [ht, hpp]
    push_cast
    ring
  have hdiv : (((2 : ℤ) ^ p : ℤ) : ℚ) ≤ q / (2 : ℚ) ^ t := by
    rw [le_div_iff₀ (two_zpow_pos t), ← two_zpow_natCast_eq, ← hsplit]
    exact hlo
  have hr := le_rne_of_intCast_le hdiv
  have hr' : (((2 : ℤ) ^ p : ℤ) : ℚ) ≤ (rne (q / (2 : ℚ) ^ t) : ℚ) := by exact_mod_cast hr
  rw [hsplit, two_zpow_natCast_eq]
  exact mul_le_mul_of_nonneg_right hr' (two_zpow_pos t).le

theorem roundQ_mono_pos (f : Fmt) (hp : 1 ≤ f.prec) (a b : ℚ) (ha : 0 < a) (hab : a ≤ b) :
    f.roundQ a ≤ f.roundQ b := by
  have hb : 0 < b := lt_of_lt_of_le ha hab
  have hexp : ilog2 a ≤ ilog2 b :=
    ilog2_mono a b ha.ne' (by rwa [abs_of_pos ha, abs_of_pos hb])
  by_cases hsame : max (ilog2 a) f.emin = max (ilog2 b) f.emin
  · rw [roundQ_def f a ha.ne', roundQ_def f b hb.ne', hsame]
    apply mul_le_mul_of_nonneg_right _ (two_zpow_pos _).le
    have := rne_mono (div_le_div_of_nonneg_right hab
      (two_zpow_pos (max (ilog2 b) f.emin - ((f.prec : ℤ) - 1))).le)
    exact_mod_cast this
  · have hlt : max (ilog2 a) f.emin < ilog2 b ∧ f.emin ≤ ilog2 b := by
      rcases max_cases (ilog2 a) f.emin with ⟨h1, h1'⟩ | ⟨h1, h1'⟩ <;>
        rcases max_cases (ilog2 b) f.emin with ⟨h2, h2'⟩ | ⟨h2, h2'⟩ <;>
        rw [h1, h2] at hsame <;> rw [h1] <;> constructor <;> omega
    calc f.roundQ a ≤ (2 : ℚ) ^ (max (ilog2 a) f.emin + 1) := roundQ_le_binade f a ha
      _ ≤ (2 : ℚ) ^ ilog2 b := zpow_le_zpow_right₀ (by norm_num) (by omega)
      _ ≤ f.roundQ b := binade_le_roundQ f hp b hb hlt.2

/-- Rounding is monotone. -/
theorem roundQ_mono (f : Fmt) (hp : 1 ≤ f.prec) {a b : ℚ} (hab : a ≤ b) :
    f.roundQ a ≤ f.roundQ b := by
  rcases lt_trichotomy 0 a with ha | ha | ha
  · exact roundQ_mono_pos f hp a b ha hab
  · rw [← ha, roundQ_zero]
    exact roundQ_nonneg f b (ha ▸ hab)
  · rcases le_or_lt 0 b with hb | hb
    · have h1 : f.roundQ a ≤ 0 := by
        have := roundQ_nonneg f (-a) (by linarith)
        rw [roundQ_neg] at this
        linarith
      exact h1.trans (roundQ_nonneg f b hb)
    · have := roundQ_mono_pos f hp (-b) (-a) (by linarith) (by linarith)
      rw [roundQ_neg, roundQ_neg] at this
      linarith

/-- Rounding error of a normal value: at most half a unit in the last place, hence
at most `2 ^ (-prec)` relative to the value. -/
theorem roundQ_rel_error (f : Fmt) (q : ℚ) (hq : q ≠ 0) (hn : f.emin ≤ ilog2 q) :
    |f.roundQ q - q| ≤ |q| / (2 : ℚ) ^ (f.prec : ℤ) := by
  have two_ne : (2 : ℚ) ≠ 0 := by norm_num
  rw [roundQ_def f q hq, max_eq_left hn]
  set t : ℤ := ilog2 q - ((f.prec : ℤ) - 1) with ht
  have hu := two_zpow_pos t
  obtain ⟨hlo, _⟩ := ilog2_spec q hq
  have h1 : (rne (q / (2 : ℚ) ^ t) : ℚ) * (2 : ℚ) ^ t - q
      = ((rne (q / (2 : ℚ) ^ t) : ℚ) - q / (2 : ℚ) ^ t) * (2 : ℚ) ^ t := by
    field_simp
  rw [h1, abs_mul, abs_of_pos hu]
  have h2 := rne_abs_sub_le (q / (2 : ℚ) ^ t)
  have h3 : (1 / 2 : ℚ) * (2 : ℚ) ^ t = (2 : ℚ) ^ ilog2 q / (2 : ℚ) ^ (f.prec : ℤ) := by
    rw [← zpow_sub₀ two_ne]
    have : ilog2 q - (f.prec : ℤ) = t + (-1) := by rw [ht]; ring
    rw [this, zpow_add₀ two_ne]
    norm_num
    ring
  calc |(rne (q / (2 : ℚ) ^ t) : ℚ) - q / (2 : ℚ) ^ t| * (2 : ℚ) ^ t
      ≤ (1 / 2) * (2 : ℚ) ^ t := mul_le_mul_of_nonneg_right h2 hu.le
    _ = (2 : ℚ) ^ ilog2 q / (2 : ℚ) ^ (f.prec : ℤ) := h3
    _ ≤ |q| / (2 : ℚ) ^ (f.prec : ℤ) :=
        div_le_div_of_nonneg_right hlo (two_zpow_pos _).le

end Smooth

namespace Smooth

/-! ## Finite results -/

theorem round_eq_fin (f : Fmt) (q : ℚ) (h : |f.roundQ q| < (2 : ℚ) ^ (f.emax + 1)) :
    f.round q = FP.fin (f.roundQ q) := by
  rw [abs_lt] at h
  unfold Fmt.round
  simp only
  rw [if_neg (not_le.mpr h.2), if_neg (not_le.mpr h.1)]

/-- Rounding does not leave an interval whose ends are on the grid. -/
theorem roundQ_mem_Icc (f : Fmt) (hp : 1 ≤ f.prec) {q lo hi : ℚ} (hlo : f.roundQ lo = lo)
    (hhi : f.roundQ hi = hi) (h1 : lo ≤ q) (h2 : q ≤ hi) :
    lo ≤ f.roundQ q ∧ f.roundQ q ≤ hi := by
  constructor
  · rw [← hlo]
    exact roundQ_mono f hp h1
  · rw [← hhi]
    exact roundQ_mono f hp h2

theorem round64_intCast (n : Int) (hn : |n| < 2 ^ 53) :
    binary64.round (n : ℚ) = FP.fin n := by
  have h := roundQ_intCast binary64 n hn (by decide)
  rw [round_eq_fin, h]
  rw [h]
  have h1 : |(n : ℚ)| < ((2 ^ 53 : ℤ) : ℚ) := by exact_mod_cast hn
  refine h1.trans ?_
  show _ < (2 : ℚ) ^ ((1023 : ℤ) + 1)
  norm_num

end Smooth

namespace Smooth

/-! ## The box kernel on a uniform image -/

theorem ilog2_ge_of_le (q : ℚ) (e : Int) (hq : (2 : ℚ) ^ e ≤ |q|) : e ≤ ilog2 q := by
  have hne : q ≠ 0 := by
    rintro rfl
    rw [abs_zero] at hq
    exact absurd hq (not_le.mpr (two_zpow_pos e))
  obtain ⟨_, hhi⟩ := ilog2_spec q hne
  have := lt_of_le_of_lt hq hhi
  rw [zpow_lt_zpow_iff_right₀ (by norm_num : (1 : ℚ) < 2)] at this
  omega

theorem truncQ_of_nonneg (q : ℚ) (hq : 0 ≤ q) : FP.truncQ q = ⌊q⌋ := by
  simp [FP.truncQ, hq]

/-- An `int` expression whose exact value fits an `int` has that value. -/
theorem wrap32_of_fits (n : Int) (h : intFits n) : wrap32 n = n := by
  unfold wrap32
  unfold intFits at h
  omega

/-- The conversion `(int)x` of a finite value whose truncation fits an `int`. -/
theorem toInt_of_fits (q : ℚ) (h : intFits (FP.truncQ q)) : FP.toInt (FP.fin q) = FP.truncQ q := by
  simp only [FP.toInt, if_pos h]

end Smooth

namespace Smooth

/-! ## The stored value -/

end Smooth

namespace Smooth

end Smooth

namespace Smooth

end Smooth

namespace Smooth

/-! ## The all-ones test kernel in the harness -/

/-- C4 fails on the harness's own image: with the 7 by 7 kernel of ones and the
scale the harness computes for it, the pixel `(3, 3)` of the 2000 by 2000 image of
alternating `10` and `8` holds `8` in the input and `9` in the output (four columns
of `10` and three of `8` under the footprint: `448 / 49`, truncated). -/
theorem ones_kernel_changes_harness_image :
    harnessInput (3 * 1 + 3 * 2000 + 0 * 0) = 8 ∧
    (smooth harnessInput (fun _ => 0) (harnessExtent 2000 2000)
      (kernelAt (List.replicate 49 (FP.fin 1)))
      (FP.div binary64 (FP.fin 1) (accumulate (List.replicate 49 (FP.fin 1))))
      (2 * 3 + 1) 1 2000 0 1 2000 0).out (3 * 1 + 3 * 2000 + harnessExtent 2000 2000 4 * 0) = 9 := by
  refine ⟨by decide, ?_⟩
  rw [smooth_pixel_closed_form harnessInput (fun _ => 0) (harnessExtent 2000 2000) _ _ 3
    1 2000 0 1 2000 0 3 3 (by decide) (by decide) (by decide)
    (by
      intro x1 y1 x2 y2 h1 h2 h3 h4 he
      simp only [harnessExtent, Matrix.cons_val_zero, Matrix.cons_val_one, Matrix.head_cons,
        Matrix.cons_val_two, Matrix.tail_cons, Matrix.cons_val_three] at h1 h2 h3 h4
      constructor <;> omega)
    (by decide) (by decide)]
  decide!

end Smooth

namespace Smooth

/-! ## The loops of `makeKernel` -/

theorem getD_set (k : List FP) (j i : Nat) (v d : FP) (hi : i < k.length) :
    (k.set j v).getD i d = if j = i then v else k.getD i d := by
  rw [List.getD_eq_getElem _ _ (by rw [List.length_set]; exact hi), List.getElem_set,
    List.getD_eq_getElem _ _ hi]

theorem foldl_set_length {α : Type} (key : α → Nat) (val : α → FP) (l : List α) :
    ∀ k0 : List FP, (l.foldl (fun k a => k.set (key a) (val a)) k0).length = k0.length := by
  induction l with
  | nil => intro k0; rfl
  | cons a l ih =>
    intro k0
    rw [List.foldl_cons, ih, List.length_set]

/-- A loop of stores into a buffer leaves the value of the stores to a cell in
that cell, when they all store the same value. -/
theorem foldl_set_getD {α : Type} (key : α → Nat) (val : α → FP) (d : FP) (l : List α) :
    ∀ (k0 : List FP) (i : Nat) (w : FP), i < k0.length →
    (∀ b ∈ l, key b = i → val b = w) → ((∃ b ∈ l, key b = i) ∨ k0.getD i d = w) →
    (l.foldl (fun k a => k.set (key a) (val a)) k0).getD i d = w := by
  induction l with
  | nil =>
    intro k0 i w _ _ h
    rcases h with ⟨b, hb, _⟩ | h
    · simp at hb
    · simpa using h
  | cons a l ih =>
    intro k0 i w hi hval h
    rw [List.foldl_cons]
    apply ih
    · rw [List.length_set]
      exact hi
    · intro b hb
      exact hval b (List.mem_cons_of_mem _ hb)
    · rw [getD_set _ _ _ _ _ hi]
      by_cases hk : key a = i
      · right
        rw [if_pos hk]
        exact hval a (List.mem_cons_self _ _) hk
      · rw [if_neg hk]
        rcases h with ⟨b, hb, hbk⟩ | h
        · rcases List.mem_cons.mp hb with rfl | hb
          · exact absurd hbk hk
          · exact Or.inl ⟨b, hb, hbk⟩
        · exact Or.inr h

/-- The buffer `makeKernel` returns, as one store per cell of the grid. -/
theorem makeKernel_fst (exp : FP → FP) (radius : FP) :
    (makeKernel exp radius).1 =
      (extentPixels 0 ((makeKernel exp radius).2 - 1) 0 ((makeKernel exp radius).2 - 1)).foldl
        (fun k p => k.set (p.2 * (makeKernel exp radius).2 + p.1).toNat
          (FP.cast binary32 (kernelValue exp radius p.1 p.2)))
        (List.replicate ((makeKernel exp radius).2 * (makeKernel exp radius).2).toNat FP.nan) := by
  simp only [makeKernel, extentPixels]
  exact foldl_nested (fun (k : List FP) x y =>
    k.set (y * wrap32 (FP.toInt radius * 2 + 1) + x).toNat
      (FP.cast binary32 (kernelValue exp radius x y))) _ _ _

theorem makeKernel_snd (exp : FP → FP) (radius : FP) :
    (makeKernel exp radius).2 = wrap32 (FP.toInt radius * 2 + 1) := rfl

/-- The integer part of a radius below `2^30` and the side length computed from it fit
an `int`. -/
theorem floor_fits (q : ℚ) (hq : 0 ≤ q) (hq30 : q < 2 ^ 30) :
    0 ≤ ⌊q⌋ ∧ ⌊q⌋ < 2 ^ 30 := by
  constructor
  · exact Int.floor_nonneg.mpr hq
  · rw [Int.floor_lt]
    exact_mod_cast hq30

/-- The side length that `makeKernel` stores through `ksize`, for a radius from `0` to
below `2^30`: `2*trunc(r) + 1`, without overflow. -/
theorem makeKernel_size (exp : FP → FP) (q : ℚ) (hq : 0 ≤ q) (hq30 : q < 2 ^ 30) :
    (makeKernel exp (FP.fin q)).2 = 2 * ⌊q⌋ + 1 := by
  obtain ⟨h0, h1⟩ := floor_fits q hq hq30
  have ht : FP.truncQ q = ⌊q⌋ := truncQ_of_nonneg q hq
  rw [makeKernel_snd, toInt_of_fits q (by rw [ht]; unfold intFits; omega), ht,
    wrap32_of_fits _ (by unfold intFits; omega)]
  ring

theorem makeKernel_length (exp : FP → FP) (radius : FP) :
    (makeKernel exp radius).1.length =
      ((makeKernel exp radius).2 * (makeKernel exp radius).2).toNat := by
  rw [makeKernel_fst, foldl_set_length (fun p : Int × Int =>
    (p.2 * (makeKernel exp radius).2 + p.1).toNat), List.length_replicate]

/-- Stores to the cells `y*size + x` of a `size` by `size` grid, one per cell: the
cell of `(x, y)` holds the value stored for `(x, y)`. -/
theorem grid_store_getD (size : Int) (val : Int → Int → FP) (x y : Int)
    (hx : 0 ≤ x ∧ x < size) (hy : 0 ≤ y ∧ y < size) :
    kernelAt ((extentPixels 0 (size - 1) 0 (size - 1)).foldl
        (fun k p => k.set (p.2 * size + p.1).toNat (val p.1 p.2))
        (List.replicate (size * size).toNat FP.nan)) (y * size + x) = val x y := by
  have hidx0 : 0 ≤ y * size + x := by nlinarith
  have hidx1 : y * size + x < size * size := by nlinarith
  unfold kernelAt
  rw [if_pos hidx0]
  apply foldl_set_getD (fun p : Int × Int => (p.2 * size + p.1).toNat)
    (fun p : Int × Int => val p.1 p.2)
  · rw [List.length_replicate]
    omega
  · intro p hp hk
    rw [mem_extentPixels] at hp
    have hk' : p.2 * size + p.1 = y * size + x := by
      have : 0 ≤ p.2 * size + p.1 := by nlinarith [hp.1.1, hp.2.1]
      have hk2 : (p.2 * size + p.1).toNat = (y * size + x).toNat := hk
      omega
    have hy' : p.2 = y := by
      rcases lt_trichotomy p.2 y with h | h | h
      · exfalso
        nlinarith [hp.1.1, hp.1.2, hp.2.1, hp.2.2]
      · exact h
      · exfalso
        nlinarith [hp.1.1, hp.1.2, hp.2.1, hp.2.2]
    have hx' : p.1 = x := by
      rw [hy'] at hk'
      linarith
    show val p.1 p.2 = val x y
    rw [hx', hy']
  · left
    exact ⟨(x, y), mem_extentPixels.mpr ⟨⟨hx.1, by omega⟩, ⟨hy.1, by omega⟩⟩, rfl⟩

/-- The cell `y*size + x` of the buffer holds the value computed for `(x, y)`,
converted to `float`. -/
theorem makeKernel_getD (exp : FP → FP) (radius : FP) (x y : Int)
    (hx : 0 ≤ x ∧ x < (makeKernel exp radius).2) (hy : 0 ≤ y ∧ y < (makeKernel exp radius).2) :
    kernelAt (makeKernel exp radius).1 (y * (makeKernel exp radius).2 + x) =
      FP.cast binary32 (kernelValue exp radius x y) := by
  rw [makeKernel_fst]
  exact grid_store_getD (makeKernel exp radius).2
    (fun x y => FP.cast binary32 (kernelValue exp radius x y)) x y hx hy

end Smooth
namespace Smooth

/-! ## The contract of `makeKernel` -/

theorem round64_zero : binary64.round 0 = FP.fin 0 := by decide!

theorem c0_5_eq : c0_5 = FP.fin (1 / 2) := by decide!

theorem c0_2_eq : c0_2 = FP.fin (3602879701896397 / 18014398509481984) := by decide!

theorem c0_0005_eq : c0_0005 = FP.fin (1152921504606847 / 2305843009213693952) := by decide!

theorem mysqr_c0_2_eq : mysqr c0_2 = FP.fin (1441151880758559 / 36028797018963968) := by decide!

/-- The value the program computes for a cell is the thresholded Gaussian of the contract:
the squares of `mysqr` are products in `double`, `mysqr(0.2)` is the double
`1441151880758559 / 2^55`, the literals `0.5` and `0.0005` are the doubles `1/2` and
`1152921504606847 / 2^61`, and the coordinates of a cell convert to `double` exactly. -/
theorem kernelValue_eq_gaussianRef (exp : FP → FP) (q : ℚ) (x y : Int)
    (hx : |x| < 2 ^ 53) (hy : |y| < 2 ^ 53) :
    kernelValue exp (FP.fin q) x y = gaussianRef exp q x y := by
  have hxi : FP.ofInt binary64 x = FP.fin (x : ℚ) := round64_intCast x hx
  have hyi : FP.ofInt binary64 y = FP.fin (y : ℚ) := round64_intCast y hy
  have h2i : FP.ofInt binary64 2 = FP.fin 2 := by
    have := round64_intCast 2 (by decide)
    simpa [FP.ofInt] using this
  have hsubx : FP.sub binary64 (FP.fin (x : ℚ)) (FP.fin q) = binary64.round ((x : ℚ) - q) := by
    show binary64.round ((x : ℚ) + -q) = _
    rw [sub_eq_add_neg]
  have hsuby : FP.sub binary64 (FP.fin (y : ℚ)) (FP.fin q) = binary64.round ((y : ℚ) - q) := by
    show binary64.round ((y : ℚ) + -q) = _
    rw [sub_eq_add_neg]
  have hmul : FP.mul binary64 (FP.fin q) (FP.fin 2) = binary64.round (q * 2) := rfl
  have hneg : FP.neg (FP.fin (1 / 2)) = FP.fin (-(1 / 2)) := rfl
  unfold kernelValue gaussianRef gaussArgRef
  simp only [hxi, hyi, h2i, hsubx, hsuby, hmul, c0_5_eq, hneg, mysqr_c0_2_eq, c0_0005_eq]
  rfl

/-- C6, as stated, fails at the radius `2^31`: the value of `(int)radius` does not fit an
`int`, the conversion of the build gives the least `int`, and `(int)radius*2+1` in 32 bits
is `1`; the kernel has one cell.  The claim gives the size `2*trunc(r) + 1 = 4294967297`. -/
theorem makeKernel_size_wraps :
    (makeKernel expStandIn (FP.fin 2147483648)).2 = 1 ∧
    (makeKernel expStandIn (FP.fin 2147483648)).1.length = 1 ∧
    2 * ⌊(2147483648 : ℚ)⌋ + 1 = 4294967297 := by
  have h2 : (makeKernel expStandIn (FP.fin 2147483648)).2 = 1 := by
    rw [makeKernel_snd]
    decide!
  refine ⟨h2, ?_, ?_⟩
  · rw [makeKernel_length, h2]
    rfl
  · have : ⌊(2147483648 : ℚ)⌋ = 2147483648 := by simp
    rw [this]
    rfl

/-- C6, amended: for every radius `0 ≤ r < 23170` the side length stored through `ksize`
is `2*trunc(r) + 1`, an odd number, the buffer has `size*size` cells, and `size*size` fits
an `int`; for `r = 3` the side length is `7` and the buffer has `49` cells. -/
theorem makeKernel_size_cells (exp : FP → FP) (q : ℚ) (hq : 0 ≤ q) (hq2 : q < 23170) :
    (makeKernel exp (FP.fin q)).2 = 2 * ⌊q⌋ + 1 ∧
    (makeKernel exp (FP.fin q)).2 % 2 = 1 ∧
    ((makeKernel exp (FP.fin q)).1.length : ℤ) =
      (makeKernel exp (FP.fin q)).2 * (makeKernel exp (FP.fin q)).2 ∧
    intFits ((makeKernel exp (FP.fin q)).2 * (makeKernel exp (FP.fin q)).2) ∧
    (makeKernel exp (FP.fin 3)).2 = 7 ∧ (makeKernel exp (FP.fin 3)).1.length = 49 := by
  have hsize : (makeKernel exp (FP.fin q)).2 = 2 * ⌊q⌋ + 1 :=
    makeKernel_size exp q hq (lt_trans hq2 (by norm_num))
  have h3 : (makeKernel exp (FP.fin 3)).2 = 7 := by
    have := makeKernel_size exp 3 (by norm_num) (by norm_num)
    have hf : ⌊(3 : ℚ)⌋ = 3 := by simp
    rw [hf] at this
    exact this
  have hfl0 : 0 ≤ ⌊q⌋ := Int.floor_nonneg.mpr hq
  have hfl1 : ⌊q⌋ < 23170 := by
    rw [Int.floor_lt]
    exact_mod_cast hq2
  refine ⟨hsize, ?_, ?_, ?_, h3, ?_⟩
  · rw [hsize]
    omega
  · rw [makeKernel_length, Int.toNat_of_nonneg (mul_self_nonneg _)]
  · rw [hsize]
    unfold intFits
    constructor <;> nlinarith
  · rw [makeKernel_length, h3]
    rfl

/-- C6, amended, at the fractional radius `3.5`. -/
theorem makeKernel_size_cells_witness :
    (makeKernel expStandIn (FP.fin (7 / 2))).2 = 2 * ⌊(7 / 2 : ℚ)⌋ + 1 ∧
    (makeKernel expStandIn (FP.fin (7 / 2))).2 % 2 = 1 ∧
    ((makeKernel expStandIn (FP.fin (7 / 2))).1.length : ℤ) =
      (makeKernel expStandIn (FP.fin (7 / 2))).2 * (makeKernel expStandIn (FP.fin (7 / 2))).2 ∧
    intFits ((makeKernel expStandIn (FP.fin (7 / 2))).2 *
      (makeKernel expStandIn (FP.fin (7 / 2))).2) ∧
    (makeKernel expStandIn (FP.fin 3)).2 = 7 ∧ (makeKernel expStandIn (FP.fin 3)).1.length = 49 :=
  makeKernel_size_cells expStandIn (7 / 2) (by norm_num) (by norm_num)

end Smooth

namespace Smooth

/-! ## The centre of the generated kernel -/

/-- C8 fails at the radius `0`: the kernel has one cell, and the value handed to
`exp` for it is the NaN of `0.0/0.0`, not `0`; the cell holds what `exp` makes of a
NaN (a NaN, for the C library's `exp` and for the stand-in), not `exp(0) = 1`. -/
theorem makeKernel_radius_zero (exp : FP → FP) :
    makeKernel exp (FP.fin 0) =
      ([FP.cast binary32 (if FP.lt (exp FP.nan) c0_0005 then FP.fin 0 else exp FP.nan)], 1) ∧
    makeKernel expStandIn (FP.fin 0) = ([FP.nan], 1) := by
  have h2 : (makeKernel exp (FP.fin 0)).2 = 1 := by
    rw [makeKernel_snd]
    decide!
  have hlen : (makeKernel exp (FP.fin 0)).1.length = 1 := by
    rw [makeKernel_length, h2]
    rfl
  have hcell := makeKernel_getD exp (FP.fin 0) 0 0 (by rw [h2]; decide) (by rw [h2]; decide)
  have harg : FP.mul binary64 (FP.neg c0_5)
      (FP.div binary64
        (FP.add binary64
          (mysqr (FP.div binary64 (FP.sub binary64 (FP.ofInt binary64 0) (FP.fin 0))
            (FP.mul binary64 (FP.fin 0) (FP.ofInt binary64 2))))
          (mysqr (FP.div binary64 (FP.sub binary64 (FP.ofInt binary64 0) (FP.fin 0))
            (FP.mul binary64 (FP.fin 0) (FP.ofInt binary64 2)))))
        (mysqr c0_2)) = FP.nan := by decide!
  have hval : kernelValue exp (FP.fin 0) 0 0 =
      if FP.lt (exp FP.nan) c0_0005 then FP.fin 0 else exp FP.nan := by
    unfold kernelValue
    simp only [harg]
  rw [hval, h2] at hcell
  obtain ⟨w, hw⟩ := List.length_eq_one.mp hlen
  refine ⟨?_, by decide!⟩
  refine Prod.ext ?_ h2
  rw [hw] at hcell ⊢
  have : kernelAt [w] (0 * 1 + 0) = w := by
    unfold kernelAt
    simp
  rw [this] at hcell
  rw [hcell]

end Smooth

namespace Smooth

/-! ## The range of the generated weights -/

theorem roundQ64_natCast (n : Nat) (hn : n < 2 ^ 53) : binary64.roundQ (n : ℚ) = n := by
  have := roundQ_intCast binary64 (n : ℤ) (by
    rw [abs_of_nonneg (by positivity)]
    exact_mod_cast hn) (by decide)
  exact_mod_cast this

/-- A `double` operation whose exact result lies between two numbers of the grid
gives a finite result between them. -/
theorem round64_bounded (q lo hi : ℚ) (hlo : binary64.roundQ lo = lo)
    (hhi : binary64.roundQ hi = hi) (h1 : lo ≤ q) (h2 : q ≤ hi)
    (hb1 : -(2 : ℚ) ^ (1024 : ℤ) < lo) (hb2 : hi < (2 : ℚ) ^ (1024 : ℤ)) :
    binary64.round q = FP.fin (binary64.roundQ q) ∧
      lo ≤ binary64.roundQ q ∧ binary64.roundQ q ≤ hi := by
  have h := roundQ_mem_Icc binary64 (by decide) hlo hhi h1 h2
  refine ⟨?_, h⟩
  apply round_eq_fin
  show |binary64.roundQ q| < (2 : ℚ) ^ ((1023 : ℤ) + 1)
  rw [abs_lt]
  norm_num at hb1 hb2 ⊢
  constructor <;> linarith [h.1, h.2]

theorem two_pow_1024_big : (2 : ℚ) ^ (32 : ℕ) < (2 : ℚ) ^ (1024 : ℤ) := by
  norm_num

/-- The normalised coordinate `(x - radius) / (radius * 2)` of a cell of the grid
is a finite number of magnitude at most `1`. -/
theorem normCoord_range (q : ℚ) (x : Int) (hq : 0 < q) (hrep : binary64.roundQ q = q)
    (hq30 : q < 2 ^ 30) (hx : 0 ≤ x ∧ x ≤ 2 * ⌊q⌋) :
    ∃ d : ℚ, FP.div binary64 (FP.sub binary64 (FP.ofInt binary64 x) (FP.fin q))
        (FP.mul binary64 (FP.fin q) (FP.ofInt binary64 2)) = FP.fin d ∧ |d| ≤ 1 := by
  have hfl : (⌊q⌋ : ℚ) ≤ q := Int.floor_le q
  have hxq : (x : ℚ) ≤ 2 * q := by
    have : (x : ℚ) ≤ ((2 * ⌊q⌋ : ℤ) : ℚ) := by exact_mod_cast hx.2
    push_cast at this
    linarith
  have hx0 : (0 : ℚ) ≤ (x : ℚ) := by exact_mod_cast hx.1
  have hbig := two_pow_1024_big
  have h30 : (2 : ℚ) ^ 30 < (2 : ℚ) ^ (32 : ℕ) := by norm_num
  have hrepn : binary64.roundQ (-q) = -q := by rw [roundQ_neg, hrep]
  -- x as a double
  have hxi : FP.ofInt binary64 x = FP.fin (x : ℚ) := by
    apply round64_intCast
    rw [abs_of_nonneg hx.1]
    have : (x : ℚ) < ((2 ^ 53 : ℤ) : ℚ) := by
      push_cast
      have : (2 : ℚ) ^ 30 * 2 < (2 : ℚ) ^ 53 := by norm_num
      linarith
    exact_mod_cast this
  have h2i : FP.ofInt binary64 2 = FP.fin 2 := by
    have := round64_intCast 2 (by decide)
    simpa [FP.ofInt] using this
  -- x - radius
  obtain ⟨ha, ha1, ha2⟩ := round64_bounded ((x : ℚ) + -q) (-q) q hrepn hrep (by linarith)
    (by linarith) (by linarith) (by linarith)
  -- radius * 2
  have h231 : binary64.roundQ ((2 : ℚ) ^ (31 : ℕ)) = (2 : ℚ) ^ (31 : ℕ) := by
    have := roundQ64_natCast (2 ^ 31) (by norm_num)
    exact_mod_cast this
  obtain ⟨hb, hb1, hb2⟩ := round64_bounded (q * 2) q ((2 : ℚ) ^ (31 : ℕ)) hrep h231
    (by linarith) (by
      have : (2 : ℚ) ^ (31 : ℕ) = (2 : ℚ) ^ 30 * 2 := by norm_num
      linarith) (by linarith) (by
      have : (2 : ℚ) ^ (31 : ℕ) < (2 : ℚ) ^ (32 : ℕ) := by norm_num
      linarith)
  have hbpos : 0 < binary64.roundQ (q * 2) := by linarith
  -- the quotient
  have hone : binary64.roundQ 1 = 1 := by
    have := roundQ64_natCast 1 (by norm_num)
    simpa using this
  have honen : binary64.roundQ (-1) = -1 := by rw [roundQ_neg, hone]
  have hquot : |binary64.roundQ ((x : ℚ) + -q) / binary64.roundQ (q * 2)| ≤ 1 := by
    rw [abs_div, abs_of_pos hbpos, div_le_one hbpos, abs_le]
    constructor <;> linarith
  rw [abs_le] at hquot
  obtain ⟨hd, hd1, hd2⟩ := round64_bounded
    (binary64.roundQ ((x : ℚ) + -q) / binary64.roundQ (q * 2)) (-1) 1 honen hone hquot.1 hquot.2
    (by
      have : (0 : ℚ) < (2 : ℚ) ^ (1024 : ℤ) := two_zpow_pos 1024
      linarith [show (1 : ℚ) < (2 : ℚ) ^ (32 : ℕ) by norm_num])
    (by linarith [show (1 : ℚ) < (2 : ℚ) ^ (32 : ℕ) by norm_num])
  refine ⟨binary64.roundQ (binary64.roundQ ((x : ℚ) + -q) / binary64.roundQ (q * 2)), ?_, ?_⟩
  · rw [hxi, h2i]
    show FP.div binary64 (binary64.round ((x : ℚ) + -q)) (binary64.round (q * 2)) = _
    rw [ha, hb]
    show (if binary64.roundQ (q * 2) = 0 then _ else _) = _
    rw [if_neg hbpos.ne', hd]
  · rw [abs_le]
    exact ⟨hd1, hd2⟩

end Smooth

namespace Smooth

theorem round32_bounded (q lo hi : ℚ) (hlo : binary32.roundQ lo = lo)
    (hhi : binary32.roundQ hi = hi) (h1 : lo ≤ q) (h2 : q ≤ hi)
    (hb1 : -(2 : ℚ) ^ (128 : ℤ) < lo) (hb2 : hi < (2 : ℚ) ^ (128 : ℤ)) :
    binary32.round q = FP.fin (binary32.roundQ q) ∧
      lo ≤ binary32.roundQ q ∧ binary32.roundQ q ≤ hi := by
  have h := roundQ_mem_Icc binary32 (by decide) hlo hhi h1 h2
  refine ⟨?_, h⟩
  apply round_eq_fin
  show |binary32.roundQ q| < (2 : ℚ) ^ ((127 : ℤ) + 1)
  rw [abs_lt]
  norm_num at hb1 hb2 ⊢
  constructor <;> linarith [h.1, h.2]

theorem roundQ32_c0_0005 :
    binary32.roundQ (1152921504606847 / 2305843009213693952) = 8589935 / 17179869184 := by
  decide!

/-- The weight stored for a cell of the grid is a finite number that is `0` or at
least `0.0005`, and at most `1`. -/
theorem kernelValue_range (exp : FP → FP) (hexp : ExpSpec exp) (q : ℚ) (x y : Int)
    (hq : 0 < q) (hrep : binary64.roundQ q = q) (hq30 : q < 2 ^ 30)
    (hx : 0 ≤ x ∧ x ≤ 2 * ⌊q⌋) (hy : 0 ≤ y ∧ y ≤ 2 * ⌊q⌋) :
    ∃ w : ℚ, FP.cast binary32 (kernelValue exp (FP.fin q) x y) = FP.fin w ∧
      (w = 0 ∨ 5 / 10000 ≤ w) ∧ w ≤ 1 := by
  obtain ⟨dx, hdx, hdx1⟩ := normCoord_range q x hq hrep hq30 hx
  obtain ⟨dy, hdy, hdy1⟩ := normCoord_range q y hq hrep hq30 hy
  have hbig : (2 : ℚ) ^ (32 : ℕ) < (2 : ℚ) ^ (1024 : ℤ) := two_pow_1024_big
  have h232 : (2 : ℚ) ^ (32 : ℕ) = 4294967296 := by norm_num
  have hg0 : binary64.roundQ 0 = 0 := roundQ_zero _
  have hg1 : binary64.roundQ 1 = 1 := by
    have := roundQ64_natCast 1 (by norm_num)
    simpa using this
  have hg2 : binary64.roundQ 2 = 2 := by
    have := roundQ64_natCast 2 (by norm_num)
    simpa using this
  have hg64 : binary64.roundQ 64 = 64 := by
    have := roundQ64_natCast 64 (by norm_num)
    simpa using this
  have hg32 : binary64.roundQ (-32) = -32 := by
    have := roundQ64_natCast 32 (by norm_num)
    rw [roundQ_neg]
    simpa using this
  have hsq : ∀ d : ℚ, |d| ≤ 1 → 0 ≤ d * d ∧ d * d ≤ 1 := by
    intro d hd
    rw [abs_le] at hd
    constructor
    · exact mul_self_nonneg d
    · nlinarith
  -- the squares
  obtain ⟨hex, hex0, hex1⟩ := round64_bounded (dx * dx) 0 1 hg0 hg1 (hsq dx hdx1).1
    (hsq dx hdx1).2 (by linarith) (by linarith)
  obtain ⟨hey, hey0, hey1⟩ := round64_bounded (dy * dy) 0 1 hg0 hg1 (hsq dy hdy1).1
    (hsq dy hdy1).2 (by linarith) (by linarith)
  -- their sum
  obtain ⟨hs, hs0, hs1⟩ := round64_bounded
    (binary64.roundQ (dx * dx) + binary64.roundQ (dy * dy)) 0 2 hg0 hg2 (by linarith)
    (by linarith) (by linarith) (by linarith)
  set s : ℚ := binary64.roundQ (binary64.roundQ (dx * dx) + binary64.roundQ (dy * dy)) with hsdef
  -- divided by 0.2 squared
  have hc : (0 : ℚ) < 1441151880758559 / 36028797018963968 := by norm_num
  obtain ⟨ht, ht0, ht1⟩ := round64_bounded (s / (1441151880758559 / 36028797018963968)) 0 64
    hg0 hg64 (div_nonneg hs0 hc.le) (by
      rw [div_le_iff₀ hc]
      norm_num
      linarith) (by linarith) (by linarith)
  set t : ℚ := binary64.roundQ (s / (1441151880758559 / 36028797018963968)) with htdef
  -- times -0.5
  obtain ⟨hm, hm0, hm1⟩ := round64_bounded (-(1 / 2) * t) (-32) 0 hg32 hg0 (by linarith)
    (by linarith) (by linarith) (by linarith)
  set m : ℚ := binary64.roundQ (-(1 / 2) * t) with hmdef
  have harg : FP.mul binary64 (FP.neg c0_5)
      (FP.div binary64
        (FP.add binary64
          (mysqr (FP.div binary64 (FP.sub binary64 (FP.ofInt binary64 x) (FP.fin q))
            (FP.mul binary64 (FP.fin q) (FP.ofInt binary64 2))))
          (mysqr (FP.div binary64 (FP.sub binary64 (FP.ofInt binary64 y) (FP.fin q))
            (FP.mul binary64 (FP.fin q) (FP.ofInt binary64 2)))))
        (mysqr c0_2)) = FP.fin m := by
    rw [hdx, hdy, mysqr_c0_2_eq, c0_5_eq]
    show FP.mul binary64 (FP.fin (-(1 / 2)))
      (FP.div binary64 (FP.add binary64 (binary64.round (dx * dx)) (binary64.round (dy * dy)))
        (FP.fin (1441151880758559 / 36028797018963968))) = _
    rw [hex, hey]
    show FP.mul binary64 (FP.fin (-(1 / 2)))
      (FP.div binary64
        (binary64.round (binary64.roundQ (dx * dx) + binary64.roundQ (dy * dy)))
        (FP.fin (1441151880758559 / 36028797018963968))) = _
    rw [hs]
    show FP.mul binary64 (FP.fin (-(1 / 2)))
      (if (1441151880758559 / 36028797018963968 : ℚ) = 0 then _
        else binary64.round (s / (1441151880758559 / 36028797018963968))) = _
    rw [if_neg hc.ne', ht]
    show binary64.round (-(1 / 2) * t) = _
    rw [hm]
  obtain ⟨g, hg, hg0', hg1'⟩ := hexp.nonpos m hm1
  have hval : kernelValue exp (FP.fin q) x y =
      if g < 1152921504606847 / 2305843009213693952 then FP.fin 0 else FP.fin g := by
    unfold kernelValue
    simp only [harg, hg, c0_0005_eq, FP.lt, decide_eq_true_eq]
  rw [hval]
  have h32_0 : binary32.roundQ 0 = 0 := roundQ_zero _
  have h32_1 : binary32.roundQ 1 = 1 := by
    have := roundQ_intCast binary32 1 (by decide) (by decide)
    simpa using this
  have h128 : (1 : ℚ) < (2 : ℚ) ^ (128 : ℤ) := by norm_num
  split_ifs with hlt
  · refine ⟨0, ?_, Or.inl rfl, by norm_num⟩
    show binary32.round 0 = FP.fin 0
    decide!
  · have hge : (1152921504606847 / 2305843009213693952 : ℚ) ≤ g := not_lt.mp hlt
    have hmono : (8589935 / 17179869184 : ℚ) ≤ binary32.roundQ g := by
      rw [← roundQ32_c0_0005]
      exact roundQ_mono binary32 (by decide) hge
    obtain ⟨hw, _, hw1⟩ := round32_bounded g 0 1 h32_0 h32_1 hg0' hg1' (by linarith)
      (by linarith)
    refine ⟨binary32.roundQ g, hw, Or.inr ?_, hw1⟩
    have : (5 / 10000 : ℚ) ≤ 8589935 / 17179869184 := by norm_num
    linarith

end Smooth

namespace Smooth

/-! ## The stand-in for `exp` -/

theorem foldl_series_ge (t : ℚ) (ht : 0 ≤ t) (l : List Nat) : ∀ s : ℚ,
    s ≤ l.foldl (fun s k => s + t ^ k / (k.factorial : ℚ)) s := by
  induction l with
  | nil => intro s; exact le_rfl
  | cons k l ih =>
    intro s
    rw [List.foldl_cons]
    have : 0 ≤ t ^ k / (k.factorial : ℚ) := by positivity
    exact le_trans (by linarith) (ih _)

theorem expSeries_ge_one (t : ℚ) (ht : 0 ≤ t) (n : Nat) : 1 ≤ expSeries t (n + 1) := by
  unfold expSeries
  rw [List.range_succ_eq_map, List.foldl_cons]
  have h := foldl_series_ge t ht (List.map Nat.succ (List.range n))
    (0 + t ^ 0 / ((0 : ℕ).factorial : ℚ))
  simpa using h

theorem expStandIn_spec : ExpSpec expStandIn := by
  refine ⟨by decide!, ?_⟩
  intro a ha
  have hP := expSeries_ge_one (-a) (by linarith) 23
  have hpos : (0 : ℚ) < expSeries (-a) 24 := by linarith
  have hone : binary64.roundQ 1 = 1 := by
    have := roundQ_intCast binary64 1 (by decide) (by decide)
    simpa using this
  have hbig : (1 : ℚ) < (2 : ℚ) ^ (1024 : ℤ) := by norm_num
  obtain ⟨h, h0, h1⟩ := round64_bounded (1 / expSeries (-a) 24) 0 1 (roundQ_zero _) hone
    (by positivity) (by rw [div_le_one hpos]; exact hP) (by linarith) (by linarith)
  refine ⟨binary64.roundQ (1 / expSeries (-a) 24), ?_, h0, h1⟩
  show (if a ≤ 0 then binary64.round (1 / expSeries (-a) 24)
    else binary64.round (expSeries a 24)) = _
  rw [if_pos ha, h]

/-! ## The threshold -/

theorem mem_makeKernel (exp : FP → FP) (radius : FP) (c : FP)
    (hpos : 0 < (makeKernel exp radius).2) (hc : c ∈ (makeKernel exp radius).1) :
    ∃ x y : Int, (0 ≤ x ∧ x < (makeKernel exp radius).2) ∧
      (0 ≤ y ∧ y < (makeKernel exp radius).2) ∧
      c = FP.cast binary32 (kernelValue exp radius x y) := by
  obtain ⟨i, hi, rfl⟩ := List.getElem_of_mem hc
  have hi' := hi
  rw [makeKernel_length] at hi'
  have hi2 : (i : ℤ) < (makeKernel exp radius).2 * (makeKernel exp radius).2 := by omega
  have hx : 0 ≤ (i : ℤ) % (makeKernel exp radius).2 ∧
      (i : ℤ) % (makeKernel exp radius).2 < (makeKernel exp radius).2 :=
    ⟨Int.emod_nonneg _ hpos.ne', Int.emod_lt_of_pos _ hpos⟩
  have hy : 0 ≤ (i : ℤ) / (makeKernel exp radius).2 ∧
      (i : ℤ) / (makeKernel exp radius).2 < (makeKernel exp radius).2 :=
    ⟨Int.ediv_nonneg (by positivity) hpos.le, Int.ediv_lt_of_lt_mul hpos hi2⟩
  refine ⟨_, _, hx, hy, ?_⟩
  rw [← makeKernel_getD exp radius _ _ hx hy]
  have hidx : (i : ℤ) / (makeKernel exp radius).2 * (makeKernel exp radius).2
      + (i : ℤ) % (makeKernel exp radius).2 = i := by
    rw [mul_comm]
    exact Int.ediv_add_emod _ _
  rw [hidx]
  unfold kernelAt
  rw [if_pos (by positivity), Int.toNat_ofNat, List.getD_eq_getElem _ _ hi]

/-- C9: for a radius `r > 0` (a `double`, with a side length that fits an `int`),
every weight of the kernel `makeKernel` returns is a finite number that is exactly
`0` or at least `0.0005`: none lies strictly between `0` and `0.0005` and none is
negative. -/
theorem makeKernel_threshold (exp : FP → FP) (q : ℚ) (c : FP) (hexp : ExpSpec exp)
    (hq : 0 < q) (hrep : binary64.roundQ q = q) (hq30 : q < 2 ^ 30)
    (hc : c ∈ (makeKernel exp (FP.fin q)).1) :
    ∃ w : ℚ, c = FP.fin w ∧ (w = 0 ∨ 5 / 10000 ≤ w) ∧ ¬ (0 < w ∧ w < 5 / 10000) ∧ 0 ≤ w := by
  have hsize : (makeKernel exp (FP.fin q)).2 = 2 * ⌊q⌋ + 1 :=
    makeKernel_size exp q hq.le hq30
  have hfl : 0 ≤ ⌊q⌋ := Int.floor_nonneg.mpr hq.le
  obtain ⟨x, y, hx, hy, rfl⟩ := mem_makeKernel exp (FP.fin q) c (by rw [hsize]; omega) hc
  rw [hsize] at hx hy
  obtain ⟨w, hw, hw1, _⟩ := kernelValue_range exp hexp q x y hq hrep hq30
    ⟨hx.1, by omega⟩ ⟨hy.1, by omega⟩
  refine ⟨w, hw, hw1, ?_, ?_⟩
  · rintro ⟨h1, h2⟩
    rcases hw1 with h | h
    · linarith
    · linarith
  · rcases hw1 with h | h
    · linarith
    · linarith

/-- C9 at the radius `3.5`, for the first weight of the kernel. -/
theorem makeKernel_threshold_witness :
    ∃ w : ℚ, kernelAt (makeKernel expStandIn (FP.fin (7 / 2))).1 0 = FP.fin w ∧
      (w = 0 ∨ 5 / 10000 ≤ w) ∧ ¬ (0 < w ∧ w < 5 / 10000) ∧ 0 ≤ w :=
  makeKernel_threshold expStandIn (7 / 2) _ expStandIn_spec (by norm_num)
    (by decide!) (by norm_num) (by decide!)

end Smooth

namespace Smooth

/-! ## The normalisation factor of the harness -/

/-- The value computed for the centre cell of the kernel of an integer radius
`r ≥ 1` is `exp(0) = 1`, and it is not below the threshold. -/
theorem kernelValue_centre (exp : FP → FP) (hexp : ExpSpec exp) (r : Int) (hr : 1 ≤ r)
    (hr30 : r < 2 ^ 30) : kernelValue exp (FP.fin (r : ℚ)) r r = FP.fin 1 := by
  have hri : FP.ofInt binary64 r = FP.fin (r : ℚ) :=
    round64_intCast r (by rw [abs_of_nonneg (by omega)]; omega)
  have h2i : FP.ofInt binary64 2 = FP.fin 2 := by
    have := round64_intCast 2 (by decide)
    simpa [FP.ofInt] using this
  have hsub : FP.sub binary64 (FP.fin (r : ℚ)) (FP.fin (r : ℚ)) = FP.fin 0 := by
    show binary64.round ((r : ℚ) + -(r : ℚ)) = _
    rw [add_neg_cancel, round64_zero]
  have hmul : FP.mul binary64 (FP.fin (r : ℚ)) (FP.fin 2) = FP.fin ((r : ℚ) * 2) := by
    show binary64.round ((r : ℚ) * 2) = _
    have := round64_intCast (r * 2) (by rw [abs_of_nonneg (by omega)]; omega)
    push_cast at this
    exact this
  have hr0 : (r : ℚ) * 2 ≠ 0 := by
    have : (0 : ℚ) < (r : ℚ) := by exact_mod_cast (by omega : (0 : ℤ) < r)
    positivity
  have hdiv : FP.div binary64 (FP.fin 0) (FP.fin ((r : ℚ) * 2)) = FP.fin 0 := by
    show (if (r : ℚ) * 2 = 0 then _ else binary64.round (0 / ((r : ℚ) * 2))) = _
    rw [if_neg hr0, zero_div, round64_zero]
  have hsq : mysqr (FP.fin 0) = FP.fin 0 := by decide!
  have hadd : FP.add binary64 (FP.fin 0) (FP.fin 0) = FP.fin 0 := by decide!
  have hdiv2 : FP.div binary64 (FP.fin 0) (mysqr c0_2) = FP.fin 0 := by decide!
  have hmul2 : FP.mul binary64 (FP.neg c0_5) (FP.fin 0) = FP.fin 0 := by decide!
  have hlt : FP.lt (FP.fin 1) c0_0005 = false := by decide!
  unfold kernelValue
  simp only [hri, h2i, hsub, hmul, hdiv, hsq, hadd, hdiv2, hmul2, hexp.zero, hlt]
  rfl

/-- A sum in `double` of finite numbers between `0` and `1`, started from a number
between `lo` (`0` or `1`) and `2^53`, stays between `lo` and `2^53`. -/
theorem foldl_add_range (lo : ℚ) (hlo : binary64.roundQ lo = lo) (hlo0 : 0 ≤ lo)
    (l : List FP) (hl : ∀ c ∈ l, ∃ w : ℚ, c = FP.fin w ∧ 0 ≤ w ∧ w ≤ 1) :
    ∀ s : ℚ, lo ≤ s → s ≤ 2 ^ 53 →
    ∃ S : ℚ, l.foldl (fun acc w => FP.add binary64 acc w) (FP.fin s) = FP.fin S ∧
      lo ≤ S ∧ S ≤ 2 ^ 53 := by
  induction l with
  | nil => intro s h1 h2; exact ⟨s, rfl, h1, h2⟩
  | cons c l ih =>
    intro s h1 h2
    obtain ⟨w, rfl, hw0, hw1⟩ := hl _ (List.mem_cons_self _ _)
    rw [List.foldl_cons]
    have htop : binary64.roundQ (2 ^ 53 + 1) = 2 ^ 53 := by decide!
    have hbig : (2 : ℚ) ^ 53 + 1 < (2 : ℚ) ^ (1024 : ℤ) := by norm_num
    have hmono := roundQ_mono binary64 (by decide) (show s + w ≤ 2 ^ 53 + 1 by linarith)
    rw [htop] at hmono
    have hmono2 := roundQ_mono binary64 (by decide) (show lo ≤ s + w by linarith)
    rw [hlo] at hmono2
    have hfin : FP.add binary64 (FP.fin s) (FP.fin w) = FP.fin (binary64.roundQ (s + w)) := by
      show binary64.round (s + w) = _
      apply round_eq_fin
      show |binary64.roundQ (s + w)| < (2 : ℚ) ^ ((1023 : ℤ) + 1)
      rw [abs_of_nonneg (by linarith)]
      norm_num at hbig ⊢
      linarith
    rw [hfin]
    exact ih (fun c hc => hl c (List.mem_cons_of_mem _ hc)) _ hmono2 hmono

/-- The sum of a kernel whose weights lie between `0` and `1`, one of them `1`, is
a finite number, at least `1` and at most `2^53`. -/
theorem accumulate_ge_one (l : List FP)
    (hl : ∀ c ∈ l, ∃ w : ℚ, c = FP.fin w ∧ 0 ≤ w ∧ w ≤ 1) (h1 : FP.fin 1 ∈ l) :
    ∃ S : ℚ, accumulate l = FP.fin S ∧ 1 ≤ S ∧ S ≤ 2 ^ 53 := by
  obtain ⟨l1, l2, rfl⟩ := List.append_of_mem h1
  unfold accumulate
  rw [List.foldl_append, List.foldl_cons]
  have hone : binary64.roundQ 1 = 1 := by
    have := roundQ_intCast binary64 1 (by decide) (by decide)
    simpa using this
  obtain ⟨S1, hS1, h10, h11⟩ := foldl_add_range 0 (roundQ_zero _) le_rfl l1
    (fun c hc => hl c (List.mem_append_left _ hc)) 0 le_rfl (by norm_num)
  rw [hS1]
  obtain ⟨S2, hS2, h20, h21⟩ := foldl_add_range 0 (roundQ_zero _) le_rfl [FP.fin 1]
    (by
      intro c hc
      rw [List.mem_singleton] at hc
      exact ⟨1, hc, by norm_num, le_rfl⟩) S1 h10 h11
  simp only [List.foldl_cons, List.foldl_nil] at hS2
  have hS2' : (1 : ℚ) ≤ S2 := by
    have hfin : FP.add binary64 (FP.fin S1) (FP.fin 1) = binary64.round (S1 + 1) := rfl
    have hm := roundQ_mono binary64 (by decide) (show (1 : ℚ) ≤ S1 + 1 by linarith)
    rw [hone] at hm
    rw [hfin] at hS2
    unfold Fmt.round at hS2
    simp only at hS2
    split_ifs at hS2
    injection hS2 with hS2
    rw [← hS2]
    exact hm
  rw [hS2]
  exact foldl_add_range 1 hone (by norm_num) l2
    (fun c hc => hl c (List.mem_append_right _ (List.mem_cons_of_mem _ hc))) S2 hS2' h21

end Smooth

namespace Smooth

/-- C10, as stated, fails for the harness's `scale`: with the stand-in for `exp` and the
radius `3`, the sum that the harness accumulates is `S = 4831435091 / 2^29` and `scale` is
the double `8007067361772435 / 2^56`, which is not `1/S`; in exact arithmetic `scale * S`
is not `1`. -/
theorem harness_scale_not_reciprocal :
    harnessScale expStandIn 3 = FP.fin (8007067361772435 / 72057594037927936) ∧
    accumulate (makeKernel expStandIn (FP.ofInt binary64 3)).1 =
      FP.fin (4831435091 / 536870912) ∧
    (8007067361772435 / 72057594037927936 : ℚ) ≠ 1 / (4831435091 / 536870912) ∧
    (8007067361772435 / 72057594037927936 : ℚ) * (4831435091 / 536870912) ≠ 1 := by
  decide!

/-- C10, amended: for an integer radius `1 ≤ r < 23170` (the harness uses `3`), the sum `S`
that the harness accumulates in `double` over the `size*size` weights of `makeKernel(r)` is
a finite number, at least `1` (the centre weight); the harness's `scale` is the double
nearest to `1/S`, a positive number of at most `1`; and in exact arithmetic `scale * S`
differs from `1` by at most `2^-53`. -/
theorem harness_scale_normalises (exp : FP → FP) (r : Int) (hexp : ExpSpec exp)
    (hr : 1 ≤ r) (hr2 : r < 23170) :
    ∃ S sc : ℚ, accumulate (makeKernel exp (FP.ofInt binary64 r)).1 = FP.fin S ∧ 1 ≤ S ∧
      harnessScale exp r = FP.fin sc ∧ sc = binary64.roundQ (1 / S) ∧
      0 < sc ∧ sc ≤ 1 ∧ |sc * S - 1| ≤ 1 / 2 ^ 53 := by
  have hr30 : r < 2 ^ 30 := by omega
  have hri : FP.ofInt binary64 r = FP.fin (r : ℚ) :=
    round64_intCast r (by rw [abs_of_nonneg (by omega)]; omega)
  have hrq : (0 : ℚ) < (r : ℚ) := by exact_mod_cast (by omega : (0 : ℤ) < r)
  have hrep : binary64.roundQ (r : ℚ) = r :=
    roundQ_intCast binary64 r (by
      rw [abs_of_nonneg (by omega)]
      show r < 2 ^ 53
      omega) (by decide)
  have hq30 : (r : ℚ) < 2 ^ 30 := by exact_mod_cast hr30
  have hfloor : ⌊(r : ℚ)⌋ = r := Int.floor_intCast r
  have hsize : (makeKernel exp (FP.fin (r : ℚ))).2 = 2 * r + 1 := by
    have := makeKernel_size exp (r : ℚ) hrq.le hq30
    rwa [hfloor] at this
  -- every weight is a finite number between 0 and 1
  have hall : ∀ c ∈ (makeKernel exp (FP.fin (r : ℚ))).1,
      ∃ w : ℚ, c = FP.fin w ∧ 0 ≤ w ∧ w ≤ 1 := by
    intro c hc
    obtain ⟨x, y, hx, hy, rfl⟩ := mem_makeKernel exp (FP.fin (r : ℚ)) c (by rw [hsize]; omega) hc
    rw [hsize] at hx hy
    obtain ⟨w, hw, hw1, hw2⟩ := kernelValue_range exp hexp (r : ℚ) x y hrq hrep hq30
      ⟨hx.1, by rw [hfloor]; omega⟩ ⟨hy.1, by rw [hfloor]; omega⟩
    refine ⟨w, hw, ?_, hw2⟩
    rcases hw1 with h | h <;> linarith
  -- the centre weight is 1
  have hcentre : FP.fin 1 ∈ (makeKernel exp (FP.fin (r : ℚ))).1 := by
    have hget := makeKernel_getD exp (FP.fin (r : ℚ)) r r (by rw [hsize]; omega)
      (by rw [hsize]; omega)
    rw [kernelValue_centre exp hexp r hr hr30] at hget
    have hc1 : FP.cast binary32 (FP.fin 1) = FP.fin 1 := by decide!
    rw [hc1] at hget
    unfold kernelAt at hget
    have hidx : 0 ≤ r * (makeKernel exp (FP.fin (r : ℚ))).2 + r := by
      rw [hsize]
      nlinarith
    rw [if_pos hidx] at hget
    have hlt : (r * (makeKernel exp (FP.fin (r : ℚ))).2 + r).toNat <
        (makeKernel exp (FP.fin (r : ℚ))).1.length := by
      rw [makeKernel_length, hsize]
      have : r * (2 * r + 1) + r < (2 * r + 1) * (2 * r + 1) := by nlinarith
      have h0 : 0 ≤ r * (2 * r + 1) + r := by nlinarith
      omega
    rw [List.getD_eq_getElem _ _ hlt] at hget
    rw [← hget]
    exact List.getElem_mem _
  obtain ⟨S, hS, hS1, hS53⟩ := accumulate_ge_one _ hall hcentre
  have hSpos : 0 < S := by linarith
  have hS0 : S ≠ 0 := hSpos.ne'
  have hinv0 : 0 < 1 / S := by positivity
  have hinv1 : 1 / S ≤ 1 := by
    rw [div_le_iff₀ hSpos]
    linarith
  have hinv53 : (2 : ℚ) ^ (-53 : ℤ) ≤ 1 / S := by
    rw [le_div_iff₀ hSpos]
    have h1 : (2 : ℚ) ^ (-53 : ℤ) * S ≤ (2 : ℚ) ^ (-53 : ℤ) * 2 ^ 53 :=
      mul_le_mul_of_nonneg_left hS53 (two_zpow_pos _).le
    have h2 : (2 : ℚ) ^ (-53 : ℤ) * 2 ^ 53 = 1 := by norm_num
    linarith
  have hone : binary64.roundQ 1 = 1 := by
    have := roundQ_intCast binary64 1 (by decide) (by decide)
    simpa using this
  obtain ⟨hfin, hsc0, hsc1⟩ := round64_bounded (1 / S) 0 1 (roundQ_zero _) hone hinv0.le hinv1
    (by have := two_zpow_pos (1024 : ℤ); linarith) (by
      have : (1 : ℚ) = (2 : ℚ) ^ (0 : ℤ) := by norm_num
      rw [this]
      exact zpow_lt_zpow_right₀ (by norm_num) (by norm_num))
  have hscpos : 0 < binary64.roundQ (1 / S) := by
    have hm := roundQ_mono binary64 (by decide) hinv53
    have hg : binary64.roundQ ((2 : ℚ) ^ (-53 : ℤ)) = (2 : ℚ) ^ (-53 : ℤ) := by
      have := roundQ_grid binary64 1 (-53) (by decide) (by decide)
      simpa using this
    rw [hg] at hm
    exact lt_of_lt_of_le (two_zpow_pos _) hm
  have hn : binary64.emin ≤ ilog2 (1 / S) := by
    have h1 : (-53 : ℤ) ≤ ilog2 (1 / S) := by
      apply ilog2_ge_of_le
      rw [abs_of_pos hinv0]
      exact hinv53
    have : binary64.emin = -1022 := rfl
    omega
  have herr := roundQ_rel_error binary64 (1 / S) hinv0.ne' hn
  have hprec : (2 : ℚ) ^ ((binary64.prec : ℕ) : ℤ) = 2 ^ 53 := by
    show (2 : ℚ) ^ ((53 : ℕ) : ℤ) = 2 ^ 53
    norm_num
  rw [abs_of_pos hinv0, hprec] at herr
  have hscale : harnessScale exp r = FP.fin (binary64.roundQ (1 / S)) := by
    unfold harnessScale
    simp only [hri]
    rw [List.take_of_length_le (by rw [makeKernel_length]), hS]
    show (if S = 0 then _ else binary64.round (1 / S)) = _
    rw [if_neg hS0]
    exact hfin
  refine ⟨S, binary64.roundQ (1 / S), by rw [hri]; exact hS, hS1, hscale, rfl, hscpos, hsc1, ?_⟩
  have e1 : binary64.roundQ (1 / S) * S - 1 = (binary64.roundQ (1 / S) - 1 / S) * S := by
    field_simp
  rw [e1, abs_mul, abs_of_pos hSpos]
  have e2 : 1 / S / 2 ^ 53 * S = 1 / 2 ^ 53 := by field_simp
  calc |binary64.roundQ (1 / S) - 1 / S| * S ≤ 1 / S / 2 ^ 53 * S :=
        mul_le_mul_of_nonneg_right herr hSpos.le
    _ = 1 / 2 ^ 53 := e2

/-- C10, amended, at the radius `3` of the harness. -/
theorem harness_scale_normalises_witness :
    ∃ S sc : ℚ, accumulate (makeKernel expStandIn (FP.ofInt binary64 3)).1 = FP.fin S ∧ 1 ≤ S ∧
      harnessScale expStandIn 3 = FP.fin sc ∧ sc = binary64.roundQ (1 / S) ∧
      0 < sc ∧ sc ≤ 1 ∧ |sc * S - 1| ≤ 1 / 2 ^ 53 :=
  harness_scale_normalises expStandIn 3 expStandIn_spec (by decide) (by decide)

end Smooth

namespace Smooth

/-! ## The impulse response -/

end Smooth

namespace Smooth

end Smooth

namespace Smooth

end Smooth

namespace Smooth

/-! ## The frame of `smooth` -/

/-- A loop of stores leaves alone the cells that no store addresses. -/
theorem foldl_update_frame {α : Type} (key : α → Int) (val : α → Nat) (l : List α)
    (out : Int → Nat) (k : Int) (hk : ∀ b ∈ l, key b ≠ k) :
    (l.foldl (fun o a => Function.update o (key a) (val a)) out) k = out k :=
  foldl_update key val l out k (out k) (fun b hb h => absurd h (hk b hb)) (Or.inr rfl)

end Smooth

namespace Smooth

/-! ## The check of the kernel size -/

end Smooth

namespace Smooth

/-! ## The kernel indices that the footprint loops read -/

theorem range_succ_map_cast (n : Nat) :
    (List.range (n + 1)).map (fun k : Nat => (k : Int)) =
      (List.range n).map (fun k : Nat => (k : Int)) ++ [(n : Int)] := by
  rw [List.range_succ, List.map_append]
  rfl

/-- The kernel indices read by the loop over `u` continue the count of the reads
before it, whatever the coordinates are. -/
theorem foldl_tapReads_index (width height x : Int) (l : List Int) :
    ∀ (rs : List TapRead) (i ny : Int) (n : Nat),
    rs.map TapRead.i = (List.range n).map (fun k : Nat => (k : Int)) → i = (n : Int) →
    (l.foldl (tapReads width height x) (rs, i, ny)).1.map TapRead.i =
        (List.range (n + l.length)).map (fun k : Nat => (k : Int)) ∧
      (l.foldl (tapReads width height x) (rs, i, ny)).2.1 = ((n + l.length : Nat) : Int) := by
  induction l with
  | nil =>
    intro rs i ny n hrs hi
    exact ⟨hrs, by simpa using hi⟩
  | cons u l ih =>
    intro rs i ny n hrs hi
    rw [List.foldl_cons]
    have hlen : n + (u :: l).length = (n + 1) + l.length := by
      simp only [List.length_cons]
      omega
    rw [hlen]
    apply ih
    · show (rs ++ [_]).map TapRead.i = _
      rw [List.map_append, hrs, range_succ_map_cast, hi]
      rfl
    · show i + 1 = _
      rw [hi]
      push_cast
      rfl

/-- The kernel indices read by the loop over `v`. -/
theorem foldl_rowReads_index (width height uc x y : Int) (l : List Int) :
    ∀ (rs : List TapRead) (i : Int) (n : Nat),
    rs.map TapRead.i = (List.range n).map (fun k : Nat => (k : Int)) → i = (n : Int) →
    (l.foldl (rowReads width height uc x y) (rs, i)).1.map TapRead.i =
        (List.range (n + l.length * (upTo (-uc) uc).length)).map (fun k : Nat => (k : Int)) ∧
      (l.foldl (rowReads width height uc x y) (rs, i)).2 =
        ((n + l.length * (upTo (-uc) uc).length : Nat) : Int) := by
  induction l with
  | nil =>
    intro rs i n hrs hi
    simp only [List.foldl_nil, List.length_nil, Nat.zero_mul, Nat.add_zero]
    exact ⟨hrs, hi⟩
  | cons v l ih =>
    intro rs i n hrs hi
    rw [List.foldl_cons]
    have hlen : n + (v :: l).length * (upTo (-uc) uc).length =
        (n + (upTo (-uc) uc).length) + l.length * (upTo (-uc) uc).length := by
      simp only [List.length_cons]
      ring
    rw [hlen]
    obtain ⟨h1, h2⟩ := foldl_tapReads_index width height x (upTo (-uc) uc) rs i (y + v) n hrs hi
    exact ih _ _ _ h1 h2

/-- The kernel indices read for one pixel are `0, 1, 2, …` in this order, one per
tap of the footprint, `(2*vc+1) * (2*uc+1)` of them. -/
theorem footprintReads_index (width height uc vc x y : Int) :
    (footprintReads width height uc vc x y).map TapRead.i =
      (List.range ((upTo (-vc) vc).length * (upTo (-uc) uc).length)).map
        (fun k : Nat => (k : Int)) := by
  have h := (foldl_rowReads_index width height uc x y (upTo (-vc) vc) [] 0 0 rfl rfl).1
  simp only [Nat.zero_add] at h
  exact h

theorem length_upTo_symm (h : Int) : (upTo (-h) h).length = (2 * h + 1).toNat := by
  rw [length_upTo]
  congr 1
  ring

end Smooth

namespace Smooth

/-! ## Accesses in the configuration of the harness -/

theorem harnessExtent_val (w h : Int) :
    harnessExtent w h 0 = 0 ∧ harnessExtent w h 1 = w - 1 ∧ harnessExtent w h 2 = 0 ∧
      harnessExtent w h 3 = h - 1 ∧ harnessExtent w h 4 = 0 :=
  ⟨rfl, rfl, rfl, rfl, rfl⟩

theorem mem_range_map_cast {n : Nat} {i : Int}
    (h : i ∈ (List.range n).map (fun k : Nat => (k : Int))) : 0 ≤ i ∧ i < n := by
  rw [List.mem_map] at h
  obtain ⟨k, hk, rfl⟩ := h
  rw [List.mem_range] at hk
  omega

/-- C16, as stated, fails for `n = 46342`: at the pixel `(0, 46341)`, with a kernel of
size `1`, the product `ny * inIncY = 46341 * 46342 = 2147534622` of the input offset does
not fit an `int`; reduced to 32 bits it is negative, and so is the offset. -/
theorem harness_offset_overflows :
    ∃ r ∈ footprintReads (46342 - 1) (46342 - 1) (Int.tdiv (2 * 0 + 1) 2) (Int.tdiv (2 * 0 + 1) 2)
        0 46341,
      r.ny * 46342 = 2147534622 ∧ ¬ intFits (r.ny * 46342) ∧
      0 * 0 + wrap32 (r.ny * 46342) + r.nx * 1 < 0 := by
  decide!

/-- C16, amended: in the configuration of the harness (an `n` by `n` image, `n ≥ 1`, extent
`(0, n-1, 0, n-1, 0, 0)`, strides `1`, `n`, `0`) with `(n-1)*n` fitting an `int` (up to
`n = 46341`; the harness uses `2000`) and for an odd size `2h+1` with `size*size` fitting an
`int`: for every pixel of the extent, every read of the footprint loops has its input
offset in `[0, n*n)` and its kernel index in `[0, size*size)`, the products `ny*inIncY` and
`nx*inIncX` of the offset and the incremented index fit an `int`; the kernel indices read
are `0, 1, …, size*size - 1`, each once, in increasing order; the offset the pixel is
written to is in `[0, n*n)`, its products fit an `int`, and the cell receives the scaled
sum of the terms of these reads; and no cell outside `[0, n*n)` of the output is changed. -/
theorem harness_accesses_in_bounds (inPtr : Int → Nat) (outPtr : Int → Nat)
    (kernel : Int → FP) (scale : FP) (n h : Int) (x y : Int)
    (hn : 1 ≤ n) (hh : 0 ≤ h) (hn31 : (n - 1) * n < 2 ^ 31)
    (hs31 : (2 * h + 1) * (2 * h + 1) < 2 ^ 31)
    (hx : 0 ≤ x ∧ x ≤ n - 1) (hy : 0 ≤ y ∧ y ≤ n - 1) :
    (∀ r ∈ footprintReads (n - 1) (n - 1) (Int.tdiv (2 * h + 1) 2) (Int.tdiv (2 * h + 1) 2) x y,
      (0 ≤ 0 * 0 + r.ny * n + r.nx * 1 ∧ 0 * 0 + r.ny * n + r.nx * 1 < n * n) ∧
      (0 ≤ r.i ∧ r.i < (2 * h + 1) * (2 * h + 1)) ∧
      (intFits (r.ny * n) ∧ intFits (r.nx * 1) ∧ intFits (r.i + 1))) ∧
    (footprintReads (n - 1) (n - 1) (Int.tdiv (2 * h + 1) 2) (Int.tdiv (2 * h + 1) 2) x y).map
        TapRead.i =
      (List.range ((2 * h + 1) * (2 * h + 1)).toNat).map (fun k : Nat => (k : Int)) ∧
    (0 ≤ x * 1 + y * n + 0 * 0 ∧ x * 1 + y * n + 0 * 0 < n * n) ∧
    (intFits (y * n) ∧ intFits (x * 1)) ∧
    (smooth inPtr outPtr (harnessExtent n n) kernel scale (2 * h + 1) 1 n 0 1 n 0).out
        (x * 1 + y * n + 0 * 0) =
      FP.toUChar (FP.mul binary64 scale
        ((footprintReads (n - 1) (n - 1) (Int.tdiv (2 * h + 1) 2) (Int.tdiv (2 * h + 1) 2)
          x y).foldl (tapTerm inPtr kernel 0 1 n 0) (FP.fin 0))) ∧
    (∀ k : Int, (k < 0 ∨ n * n ≤ k) →
      (smooth inPtr outPtr (harnessExtent n n) kernel scale (2 * h + 1) 1 n 0 1 n 0).out k
        = outPtr k) := by
  obtain ⟨e0, e1, e2, e3, e4⟩ := harnessExtent_val n n
  have hidx : (footprintReads (n - 1) (n - 1) (Int.tdiv (2 * h + 1) 2)
      (Int.tdiv (2 * h + 1) 2) x y).map TapRead.i =
      (List.range ((2 * h + 1) * (2 * h + 1)).toNat).map (fun k : Nat => (k : Int)) := by
    rw [footprintReads_index, tdiv_odd h hh, length_upTo_symm]
    congr 2
    obtain ⟨m, hm⟩ := Int.eq_ofNat_of_zero_le (show 0 ≤ 2 * h + 1 by omega)
    rw [hm]
    norm_cast
  have hcell : 0 ≤ x * 1 + y * n + 0 * 0 ∧ x * 1 + y * n + 0 * 0 < n * n := by
    constructor <;> nlinarith
  have hprod : ∀ t : Int, 0 ≤ t → t ≤ n - 1 → intFits (t * n) := by
    intro t ht0 ht1
    unfold intFits
    constructor
    · nlinarith
    · nlinarith
  have hn31b : n - 1 < 2 ^ 31 := by
    by_contra hge
    push_neg at hge
    nlinarith
  refine ⟨?_, hidx, hcell, ⟨hprod y hy.1 hy.2, by unfold intFits; omega⟩, ?_, ?_⟩
  · intro r hr
    have hmem : r.i ∈ (footprintReads (n - 1) (n - 1) (Int.tdiv (2 * h + 1) 2)
        (Int.tdiv (2 * h + 1) 2) x y).map TapRead.i := List.mem_map_of_mem _ hr
    rw [hidx] at hmem
    have hi := mem_range_map_cast hmem
    have h0 : 0 ≤ (2 * h + 1) * (2 * h + 1) := by nlinarith
    have hi2 : 0 ≤ r.i ∧ r.i < (2 * h + 1) * (2 * h + 1) := by omega
    rw [tdiv_odd h hh, footprintReads_eq (n - 1) (n - 1) h h x y (by omega) (by omega) hh] at hr
    simp only [List.mem_flatMap, List.mem_map] at hr
    obtain ⟨v, _, u, _, rfl⟩ := hr
    have hcx := clampEdge_mem (x + u) (n - 1) (by omega)
    have hcy := clampEdge_mem (y + v) (n - 1) (by omega)
    simp only at hi2 ⊢
    refine ⟨?_, hi2, hprod _ hcy.1 hcy.2, ?_, ?_⟩
    · constructor <;> nlinarith
    · unfold intFits
      omega
    · unfold intFits
      omega
  · have := smooth_out_pixel inPtr outPtr (harnessExtent n n) kernel scale (2 * h + 1)
      1 n 0 1 n 0 x y (by rw [e0, e1]; exact hx) (by rw [e2, e3]; exact hy)
      (by
        intro x' y' hx' hy' he
        rw [e0, e1] at hx'
        rw [e2, e3] at hy'
        have hy'' : y' = y := by
          rcases lt_trichotomy y' y with hlt | heq | hgt
          · exfalso; nlinarith
          · exact heq
          · exfalso; nlinarith
        subst hy''
        exact ⟨by linarith, rfl⟩)
    rw [e4, e1, e3, pixelSum_eq_reads] at this
    exact this
  · intro k hk
    clear hn31 hs31 hprod hn31b hidx hcell
    rw [smooth_out]
    apply foldl_update_frame
      (fun p : Int × Int => harnessExtent n n 4 * 0 + p.2 * n + p.1 * 1)
    intro p hp heq
    rw [mem_extentPixels, e0, e1, e2, e3] at hp
    rw [e4] at heq
    have h1 : 0 ≤ p.2 * n + p.1 := by nlinarith [hp.1.1, hp.2.1]
    have h2 : p.2 * n + p.1 < n * n := by nlinarith [hp.1.2, hp.2.2, hp.1.1, hp.2.1]
    omega

/-- C16, amended, at the harness pattern on a 4 by 4 image, a 3 by 3 kernel and the corner
pixel `(3, 3)`. -/
theorem harness_accesses_in_bounds_witness :
    (∀ r ∈ footprintReads (4 - 1) (4 - 1) (Int.tdiv (2 * 1 + 1) 2) (Int.tdiv (2 * 1 + 1) 2) 3 3,
      (0 ≤ 0 * 0 + r.ny * 4 + r.nx * 1 ∧ 0 * 0 + r.ny * 4 + r.nx * 1 < 4 * 4) ∧
      (0 ≤ r.i ∧ r.i < (2 * 1 + 1) * (2 * 1 + 1)) ∧
      (intFits (r.ny * 4) ∧ intFits (r.nx * 1) ∧ intFits (r.i + 1))) ∧
    (footprintReads (4 - 1) (4 - 1) (Int.tdiv (2 * 1 + 1) 2) (Int.tdiv (2 * 1 + 1) 2) 3 3).map
        TapRead.i =
      (List.range ((2 * 1 + 1) * (2 * 1 + 1) : Int).toNat).map (fun k : Nat => (k : Int)) ∧
    (0 ≤ (3 : Int) * 1 + 3 * 4 + 0 * 0 ∧ (3 : Int) * 1 + 3 * 4 + 0 * 0 < 4 * 4) ∧
    (intFits ((3 : Int) * 4) ∧ intFits ((3 : Int) * 1)) ∧
    (smooth harnessInput (fun _ => 0) (harnessExtent 4 4) (fun _ => FP.fin 1) (FP.fin 1)
        (2 * 1 + 1) 1 4 0 1 4 0).out (3 * 1 + 3 * 4 + 0 * 0) =
      FP.toUChar (FP.mul binary64 (FP.fin 1)
        ((footprintReads (4 - 1) (4 - 1) (Int.tdiv (2 * 1 + 1) 2) (Int.tdiv (2 * 1 + 1) 2)
          3 3).foldl (tapTerm harnessInput (fun _ => FP.fin 1) 0 1 4 0) (FP.fin 0))) ∧
    (∀ k : Int, (k < 0 ∨ 4 * 4 ≤ k) →
      (smooth harnessInput (fun _ => 0) (harnessExtent 4 4) (fun _ => FP.fin 1) (FP.fin 1)
        (2 * 1 + 1) 1 4 0 1 4 0).out k = (fun _ => 0) k) :=
  harness_accesses_in_bounds harnessInput (fun _ => 0) (fun _ => FP.fin 1) (FP.fin 1) 4 1 3 3
    (by decide) (by decide) (by norm_num) (by norm_num) (by decide) (by decide)

end Smooth

namespace Smooth

/-! ## An even kernel size -/

end Smooth

namespace Smooth

/-! ## A fractional radius -/

/-- C13, as stated, fails: the radius `3.5` gives the side length `7` of the radius
`3`, but not its weights.  The centre cell `(3, 3)` holds `1` for the radius `3`;
for `3.5` the value handed to `exp` for that cell is about `-0.1276`, not `0`, and
the weight is below `0.9`. -/
theorem fractional_radius_changes_weights :
    (makeKernel expStandIn (FP.fin (7 / 2))).2 = (makeKernel expStandIn (FP.fin 3)).2 ∧
    kernelAt (makeKernel expStandIn (FP.fin 3)).1 (3 * 7 + 3) = FP.fin 1 ∧
    FP.mul binary64 (FP.neg c0_5)
      (FP.div binary64
        (FP.add binary64
          (mysqr (FP.div binary64 (FP.sub binary64 (FP.ofInt binary64 3) (FP.fin (7 / 2)))
            (FP.mul binary64 (FP.fin (7 / 2)) (FP.ofInt binary64 2))))
          (mysqr (FP.div binary64 (FP.sub binary64 (FP.ofInt binary64 3) (FP.fin (7 / 2)))
            (FP.mul binary64 (FP.fin (7 / 2)) (FP.ofInt binary64 2)))))
        (mysqr c0_2)) = FP.fin (-(1148877455961861 / 9007199254740992)) ∧
    FP.lt (kernelAt (makeKernel expStandIn (FP.fin (7 / 2))).1 (3 * 7 + 3)) (FP.fin (9 / 10))
      = true ∧
    kernelAt (makeKernel expStandIn (FP.fin (7 / 2))).1 (3 * 7 + 3) ≠
      kernelAt (makeKernel expStandIn (FP.fin 3)).1 (3 * 7 + 3) := by
  decide!

/-- C13, amended: for every radius `1 ≤ r < 23170`, `makeKernel(r)` returns the side
length and the number of cells of `makeKernel(trunc(r))`; the weights are computed from
`r` itself: the cell `y*size + x` of `makeKernel(r)` holds the thresholded Gaussian of the
contract at the radius `r`, that of `makeKernel(trunc(r))` the one at the radius
`trunc(r)`.  The two can differ: at the centre cell `(3, 3)` the argument of `exp` is
about `-0.1276` for the radius `3.5` and `0` for the radius `3`. -/
theorem makeKernel_truncates_size (exp : FP → FP) (q : ℚ) (x y : Int) (hq : 1 ≤ q)
    (hq2 : q < 23170) (hx : 0 ≤ x ∧ x < 2 * ⌊q⌋ + 1) (hy : 0 ≤ y ∧ y < 2 * ⌊q⌋ + 1) :
    (makeKernel exp (FP.fin q)).2 = (makeKernel exp (FP.fin (⌊q⌋ : ℚ))).2 ∧
    (makeKernel exp (FP.fin q)).1.length = (makeKernel exp (FP.fin (⌊q⌋ : ℚ))).1.length ∧
    kernelAt (makeKernel exp (FP.fin q)).1 (y * (2 * ⌊q⌋ + 1) + x) =
      FP.cast binary32 (gaussianRef exp q x y) ∧
    kernelAt (makeKernel exp (FP.fin (⌊q⌋ : ℚ))).1 (y * (2 * ⌊q⌋ + 1) + x) =
      FP.cast binary32 (gaussianRef exp (⌊q⌋ : ℚ) x y) ∧
    gaussArgRef (7 / 2) 3 3 = FP.fin (-(1148877455961861 / 9007199254740992)) ∧
    gaussArgRef 3 3 3 = FP.fin 0 := by
  have hq0 : 0 ≤ q := by linarith
  have hq30 : q < 2 ^ 30 := lt_trans hq2 (by norm_num)
  have hfl : 0 ≤ ⌊q⌋ := Int.floor_nonneg.mpr hq0
  have hfl1 : ⌊q⌋ < 23170 := by
    rw [Int.floor_lt]
    exact_mod_cast hq2
  have hfl0 : (0 : ℚ) ≤ (⌊q⌋ : ℚ) := by exact_mod_cast hfl
  have hfl30 : ((⌊q⌋ : ℤ) : ℚ) < 2 ^ 30 := lt_of_le_of_lt (Int.floor_le q) hq30
  have hsize : (makeKernel exp (FP.fin q)).2 = 2 * ⌊q⌋ + 1 := makeKernel_size exp q hq0 hq30
  have hsize2 : (makeKernel exp (FP.fin (⌊q⌋ : ℚ))).2 = 2 * ⌊q⌋ + 1 := by
    have := makeKernel_size exp (⌊q⌋ : ℚ) hfl0 hfl30
    rwa [Int.floor_intCast] at this
  have hxa : |x| < 2 ^ 53 := by rw [abs_of_nonneg hx.1]; omega
  have hya : |y| < 2 ^ 53 := by rw [abs_of_nonneg hy.1]; omega
  refine ⟨by rw [hsize, hsize2], by rw [makeKernel_length, makeKernel_length, hsize, hsize2],
    ?_, ?_, by decide!, by decide!⟩
  · have := makeKernel_getD exp (FP.fin q) x y (by rw [hsize]; exact hx) (by rw [hsize]; exact hy)
    rw [hsize, kernelValue_eq_gaussianRef exp q x y hxa hya] at this
    exact this
  · have := makeKernel_getD exp (FP.fin (⌊q⌋ : ℚ)) x y (by rw [hsize2]; exact hx)
      (by rw [hsize2]; exact hy)
    rw [hsize2, kernelValue_eq_gaussianRef exp _ x y hxa hya] at this
    exact this

/-- C13, amended, at the radius `3.5` and the centre cell. -/
theorem makeKernel_truncates_size_witness :
    (makeKernel expStandIn (FP.fin (7 / 2))).2 =
      (makeKernel expStandIn (FP.fin (⌊(7 / 2 : ℚ)⌋ : ℚ))).2 ∧
    (makeKernel expStandIn (FP.fin (7 / 2))).1.length =
      (makeKernel expStandIn (FP.fin (⌊(7 / 2 : ℚ)⌋ : ℚ))).1.length ∧
    kernelAt (makeKernel expStandIn (FP.fin (7 / 2))).1 (3 * (2 * ⌊(7 / 2 : ℚ)⌋ + 1) + 3) =
      FP.cast binary32 (gaussianRef expStandIn (7 / 2) 3 3) ∧
    kernelAt (makeKernel expStandIn (FP.fin (⌊(7 / 2 : ℚ)⌋ : ℚ))).1
        (3 * (2 * ⌊(7 / 2 : ℚ)⌋ + 1) + 3) =
      FP.cast binary32 (gaussianRef expStandIn (⌊(7 / 2 : ℚ)⌋ : ℚ) 3 3) ∧
    gaussArgRef (7 / 2) 3 3 = FP.fin (-(1148877455961861 / 9007199254740992)) ∧
    gaussArgRef 3 3 3 = FP.fin 0 :=
  makeKernel_truncates_size expStandIn (7 / 2) 3 3 (by norm_num) (by norm_num)
    (by decide!) (by decide!)

end Smooth

namespace Smooth

/-! ## The symmetry of the generated kernel -/

theorem add_comm_FP (f : Fmt) (a b : FP) : FP.add f a b = FP.add f b a := by
  cases a <;> cases b <;> simp [FP.add, add_comm]

theorem round_neg (f : Fmt) (q : ℚ) : f.round (-q) = FP.neg (f.round q) := by
  have hpos : (0 : ℚ) < (2 : ℚ) ^ (f.emax + 1) := two_zpow_pos _
  unfold Fmt.round
  simp only [roundQ_neg]
  by_cases h1 : (2 : ℚ) ^ (f.emax + 1) ≤ f.roundQ q
  · rw [if_pos h1, if_neg (by linarith), if_pos (by linarith)]
    rfl
  · rw [if_neg h1]
    by_cases h2 : f.roundQ q ≤ -(2 : ℚ) ^ (f.emax + 1)
    · rw [if_pos h2, if_pos (by linarith)]
      rfl
    · rw [if_neg h2, if_neg (by linarith), if_neg (by linarith)]
      rfl

theorem div_neg_left (f : Fmt) (a b : FP) :
    FP.div f (FP.neg a) b = FP.neg (FP.div f a b) := by
  cases a with
  | fin a =>
    cases b with
    | fin b =>
      show (if b = 0 then (if -a = 0 then FP.nan else if 0 < -a then FP.pinf else FP.ninf)
        else f.round (-a / b)) =
        FP.neg (if b = 0 then (if a = 0 then FP.nan else if 0 < a then FP.pinf else FP.ninf)
          else f.round (a / b))
      by_cases hb : b = 0
      · rw [if_pos hb, if_pos hb]
        rcases lt_trichotomy a 0 with ha | ha | ha
        · rw [if_neg (by linarith), if_pos (by linarith), if_neg (by linarith),
            if_neg (by linarith)]
          rfl
        · rw [if_pos (by linarith), if_pos ha]
          rfl
        · rw [if_neg (by linarith), if_neg (by linarith), if_neg (by linarith),
            if_pos ha]
          rfl
      · rw [if_neg hb, if_neg hb, neg_div, round_neg]
    | pinf => simp [FP.div, FP.neg]
    | ninf => simp [FP.div, FP.neg]
    | nan => simp [FP.div, FP.neg]
  | pinf =>
    cases b with
    | fin b =>
      show (if 0 ≤ b then FP.ninf else FP.pinf) = FP.neg (if 0 ≤ b then FP.pinf else FP.ninf)
      split_ifs <;> rfl
    | pinf => rfl
    | ninf => rfl
    | nan => rfl
  | ninf =>
    cases b with
    | fin b =>
      show (if 0 ≤ b then FP.pinf else FP.ninf) = FP.neg (if 0 ≤ b then FP.ninf else FP.pinf)
      split_ifs <;> rfl
    | pinf => rfl
    | ninf => rfl
    | nan => rfl
  | nan => cases b <;> rfl

theorem mysqr_neg (a : FP) : mysqr (FP.neg a) = mysqr a := by
  cases a with
  | fin a =>
    show binary64.round (-a * -a) = binary64.round (a * a)
    rw [neg_mul_neg]
  | pinf => rfl
  | ninf => rfl
  | nan => rfl

/-- The value of a cell is that of the transposed cell, for every radius. -/
theorem kernelValue_transpose (exp : FP → FP) (radius : FP) (x y : Int) :
    kernelValue exp radius x y = kernelValue exp radius y x := by
  unfold kernelValue
  simp only
  rw [add_comm_FP binary64
    (mysqr (FP.div binary64 (FP.sub binary64 (FP.ofInt binary64 x) radius)
      (FP.mul binary64 radius (FP.ofInt binary64 2))))]

/-- The normalised coordinate of the cell mirrored through the centre is the
opposite of the coordinate of the cell, for an integer radius. -/
theorem normCoord_reflect (r : Int) (x : Int) (hr : 1 ≤ r) (hr30 : r < 2 ^ 30)
    (hx : 0 ≤ x ∧ x ≤ 2 * r) :
    FP.div binary64 (FP.sub binary64 (FP.ofInt binary64 (2 * r - x)) (FP.fin (r : ℚ)))
        (FP.mul binary64 (FP.fin (r : ℚ)) (FP.ofInt binary64 2)) =
      FP.neg (FP.div binary64 (FP.sub binary64 (FP.ofInt binary64 x) (FP.fin (r : ℚ)))
        (FP.mul binary64 (FP.fin (r : ℚ)) (FP.ofInt binary64 2))) := by
  have h1 : FP.ofInt binary64 (2 * r - x) = FP.fin ((2 * r - x : Int) : ℚ) :=
    round64_intCast _ (by rw [abs_of_nonneg (by omega)]; omega)
  have h2 : FP.ofInt binary64 x = FP.fin (x : ℚ) :=
    round64_intCast _ (by rw [abs_of_nonneg (by omega)]; omega)
  rw [← div_neg_left, h1, h2]
  congr 1
  show binary64.round (((2 * r - x : Int) : ℚ) + -(r : ℚ)) =
    FP.neg (binary64.round ((x : ℚ) + -(r : ℚ)))
  rw [← round_neg]
  congr 1
  push_cast
  ring

/-- The value of a cell is that of the cell mirrored through the centre, for an
integer radius. -/
theorem kernelValue_reflect (exp : FP → FP) (r : Int) (x y : Int) (hr : 1 ≤ r)
    (hr30 : r < 2 ^ 30) (hx : 0 ≤ x ∧ x ≤ 2 * r) (hy : 0 ≤ y ∧ y ≤ 2 * r) :
    kernelValue exp (FP.fin (r : ℚ)) (2 * r - x) (2 * r - y) =
      kernelValue exp (FP.fin (r : ℚ)) x y := by
  unfold kernelValue
  simp only
  rw [normCoord_reflect r x hr hr30 hx, normCoord_reflect r y hr hr30 hy, mysqr_neg, mysqr_neg]

end Smooth

namespace Smooth

/-- The cells of the kernel of an integer radius, through the values they hold. -/
theorem makeKernel_int_getD (exp : FP → FP) (r : Int) (x y : Int) (hr : 1 ≤ r)
    (hr30 : r < 2 ^ 30) (hx : 0 ≤ x ∧ x < 2 * r + 1) (hy : 0 ≤ y ∧ y < 2 * r + 1) :
    kernelAt (makeKernel exp (FP.ofInt binary64 r)).1 (y * (2 * r + 1) + x) =
      FP.cast binary32 (kernelValue exp (FP.fin (r : ℚ)) x y) := by
  have hri : FP.ofInt binary64 r = FP.fin (r : ℚ) :=
    round64_intCast r (by rw [abs_of_nonneg (by omega)]; omega)
  have hrq : (0 : ℚ) ≤ (r : ℚ) := by exact_mod_cast (by omega : (0 : ℤ) ≤ r)
  have hsize : (makeKernel exp (FP.fin (r : ℚ))).2 = 2 * r + 1 := by
    have := makeKernel_size exp (r : ℚ) hrq (by exact_mod_cast hr30)
    rwa [Int.floor_intCast] at this
  rw [hri]
  have := makeKernel_getD exp (FP.fin (r : ℚ)) x y (by rw [hsize]; exact hx)
    (by rw [hsize]; exact hy)
  rw [hsize] at this
  exact this

/-- C18: for an integer radius `1 ≤ r < 2^30` with `size = 2r+1` and `0 ≤ x, y <
size`, the kernel of `makeKernel(r)` satisfies `k[y*size+x] = k[x*size+y]` and
`k[y*size+x] = k[(size-1-y)*size + (size-1-x)]`; hence, with this kernel, the sum
`smooth` accumulates for a pixel (weights taken in the order of the offsets) is the
convolution sum with the kernel flipped in both axes. -/
theorem makeKernel_symmetric (exp : FP → FP) (r : Int) (x y : Int) (hr : 1 ≤ r)
    (hr30 : r < 2 ^ 30) (hx : 0 ≤ x ∧ x < 2 * r + 1) (hy : 0 ≤ y ∧ y < 2 * r + 1) :
    kernelAt (makeKernel exp (FP.ofInt binary64 r)).1 (y * (2 * r + 1) + x) =
      kernelAt (makeKernel exp (FP.ofInt binary64 r)).1 (x * (2 * r + 1) + y) ∧
    kernelAt (makeKernel exp (FP.ofInt binary64 r)).1 (y * (2 * r + 1) + x) =
      kernelAt (makeKernel exp (FP.ofInt binary64 r)).1
        ((2 * r + 1 - 1 - y) * (2 * r + 1) + (2 * r + 1 - 1 - x)) ∧
    (∀ (inPtr : Int → Nat) (xmax ymax z inIncX inIncY inIncZ px py : Int),
      0 ≤ xmax → 0 ≤ ymax →
      pixelSum inPtr (kernelAt (makeKernel exp (FP.ofInt binary64 r)).1) xmax ymax z
          inIncX inIncY inIncZ (Int.tdiv (2 * r + 1) 2) (Int.tdiv (2 * r + 1) 2) px py =
        convolutionSum inPtr (kernelAt (makeKernel exp (FP.ofInt binary64 r)).1) xmax ymax z
          inIncX inIncY inIncZ r (2 * r + 1) px py) := by
  have hrefl : ∀ a b : Int, (0 ≤ a ∧ a < 2 * r + 1) → (0 ≤ b ∧ b < 2 * r + 1) →
      kernelAt (makeKernel exp (FP.ofInt binary64 r)).1 (b * (2 * r + 1) + a) =
        kernelAt (makeKernel exp (FP.ofInt binary64 r)).1
          ((2 * r - b) * (2 * r + 1) + (2 * r - a)) := by
    intro a b ha hb
    rw [makeKernel_int_getD exp r a b hr hr30 ha hb,
      makeKernel_int_getD exp r (2 * r - a) (2 * r - b) hr hr30 (by omega) (by omega),
      kernelValue_reflect exp r a b hr hr30 (by omega) (by omega)]
  refine ⟨?_, ?_, ?_⟩
  · rw [makeKernel_int_getD exp r x y hr hr30 hx hy, makeKernel_int_getD exp r y x hr hr30 hy hx,
      kernelValue_transpose]
  · rw [hrefl x y hx hy]
    congr 2 <;> ring
  · intro inPtr xmax ymax z inIncX inIncY inIncZ px py hxm hym
    rw [tdiv_odd r (by omega), pixelSum_eq _ _ _ _ _ _ _ _ _ _ _ hxm hym (by omega)]
    unfold clampedWeightedSum convolutionSum
    refine List.foldl_ext _ _ _ ?_
    intro acc v hv
    refine List.foldl_ext _ _ _ ?_
    intro acc u hu
    rw [mem_upTo] at hu hv
    rw [hrefl (u + r) (v + r) (by omega) (by omega)]
    congr 3
    ring

/-- C18 at the radius `3` of the harness and the cell `(1, 5)`. -/
theorem makeKernel_symmetric_witness :
    kernelAt (makeKernel expStandIn (FP.ofInt binary64 3)).1 (5 * (2 * 3 + 1) + 1) =
      kernelAt (makeKernel expStandIn (FP.ofInt binary64 3)).1 (1 * (2 * 3 + 1) + 5) ∧
    kernelAt (makeKernel expStandIn (FP.ofInt binary64 3)).1 (5 * (2 * 3 + 1) + 1) =
      kernelAt (makeKernel expStandIn (FP.ofInt binary64 3)).1
        ((2 * 3 + 1 - 1 - 5) * (2 * 3 + 1) + (2 * 3 + 1 - 1 - 1)) ∧
    (∀ (inPtr : Int → Nat) (xmax ymax z inIncX inIncY inIncZ px py : Int),
      0 ≤ xmax → 0 ≤ ymax →
      pixelSum inPtr (kernelAt (makeKernel expStandIn (FP.ofInt binary64 3)).1) xmax ymax z
          inIncX inIncY inIncZ (Int.tdiv (2 * 3 + 1) 2) (Int.tdiv (2 * 3 + 1) 2) px py =
        convolutionSum inPtr (kernelAt (makeKernel expStandIn (FP.ofInt binary64 3)).1)
          xmax ymax z inIncX inIncY inIncZ 3 (2 * 3 + 1) px py) :=
  makeKernel_symmetric expStandIn 3 1 5 (by decide) (by decide) (by decide) (by decide)

end Smooth

namespace Smooth

/-! ## The threshold of `makeKernel` -/

/-- A non-zero number that rounding leaves unchanged is an integer of magnitude
below `2 ^ prec` times the spacing of the grid at it. -/
theorem grid_of_roundQ_fixed (f : Fmt) (q : ℚ) (hq : q ≠ 0) (hrep : f.roundQ q = q) :
    ∃ m : Int, q = (m : ℚ) * (2 : ℚ) ^ (max (ilog2 q) f.emin - ((f.prec : ℤ) - 1)) ∧
      |m| < 2 ^ f.prec := by
  have two_ne : (2 : ℚ) ≠ 0 := by norm_num
  set t : ℤ := max (ilog2 q) f.emin - ((f.prec : ℤ) - 1) with ht
  have hdef := roundQ_def f q hq
  rw [hrep, ← ht] at hdef
  refine ⟨rne (q / (2 : ℚ) ^ t), hdef, ?_⟩
  obtain ⟨_, hhi⟩ := ilog2_spec q hq
  have hu := two_zpow_pos t
  have hm : |(rne (q / (2 : ℚ) ^ t) : ℚ)| < (2 : ℚ) ^ (f.prec : ℤ) := by
    have e1 : (rne (q / (2 : ℚ) ^ t) : ℚ) = q / (2 : ℚ) ^ t := by
      rw [eq_div_iff hu.ne']
      exact hdef.symm
    rw [e1, abs_div, abs_of_pos hu, div_lt_iff₀ hu, ← zpow_add₀ two_ne]
    refine lt_of_lt_of_le hhi (zpow_le_zpow_right₀ (by norm_num) ?_)
    rw [ht]
    have := le_max_left (ilog2 q) f.emin
    omega
  rw [two_zpow_natCast_eq] at hm
  exact_mod_cast hm

/-- Twice a number of the grid is on the grid. -/
theorem roundQ_double (f : Fmt) (q : ℚ) (hrep : f.roundQ q = q) : f.roundQ (q * 2) = q * 2 := by
  have two_ne : (2 : ℚ) ≠ 0 := by norm_num
  by_cases hq : q = 0
  · rw [hq, zero_mul, roundQ_zero]
  obtain ⟨m, hm, hlt⟩ := grid_of_roundQ_fixed f q hq hrep
  set t : ℤ := max (ilog2 q) f.emin - ((f.prec : ℤ) - 1) with ht
  have h2 : q * 2 = (m : ℚ) * (2 : ℚ) ^ (t + 1) := by
    rw [zpow_add₀ two_ne, zpow_one, ← mul_assoc, ← hm]
  rw [h2]
  apply roundQ_grid f m (t + 1) hlt
  rw [ht]
  have := le_max_right (ilog2 q) f.emin
  omega

theorem roundQ64_half : binary64.roundQ (1 / 2) = 1 / 2 := by
  have := roundQ_grid binary64 1 (-1) (by decide) (by decide)
  norm_num at this ⊢
  exact this

theorem roundQ64_quarter : binary64.roundQ (1 / 4) = 1 / 4 := by
  have := roundQ_grid binary64 1 (-2) (by decide) (by decide)
  norm_num at this ⊢
  exact this

/-- The normalised coordinate of a cell of the grid is a finite number of magnitude
at most `1/2`. -/
theorem normCoord_half (q : ℚ) (x : Int) (hq : 0 < q) (hrep : binary64.roundQ q = q)
    (hq30 : q < 2 ^ 30) (hx : 0 ≤ x ∧ x ≤ 2 * ⌊q⌋) :
    ∃ d : ℚ, FP.div binary64 (FP.sub binary64 (FP.ofInt binary64 x) (FP.fin q))
        (FP.mul binary64 (FP.fin q) (FP.ofInt binary64 2)) = FP.fin d ∧ |d| ≤ 1 / 2 := by
  have hfl : (⌊q⌋ : ℚ) ≤ q := Int.floor_le q
  have hxq : (x : ℚ) ≤ 2 * q := by
    have : (x : ℚ) ≤ ((2 * ⌊q⌋ : ℤ) : ℚ) := by exact_mod_cast hx.2
    push_cast at this
    linarith
  have hx0 : (0 : ℚ) ≤ (x : ℚ) := by exact_mod_cast hx.1
  have hbig := two_pow_1024_big
  have h30 : (2 : ℚ) ^ 30 < (2 : ℚ) ^ (32 : ℕ) := by norm_num
  have hrepn : binary64.roundQ (-q) = -q := by rw [roundQ_neg, hrep]
  have hxi : FP.ofInt binary64 x = FP.fin (x : ℚ) := by
    apply round64_intCast
    rw [abs_of_nonneg hx.1]
    have : (x : ℚ) < ((2 ^ 53 : ℤ) : ℚ) := by
      push_cast
      have : (2 : ℚ) ^ 30 * 2 < (2 : ℚ) ^ 53 := by norm_num
      linarith
    exact_mod_cast this
  have h2i : FP.ofInt binary64 2 = FP.fin 2 := by
    have := round64_intCast 2 (by decide)
    simpa [FP.ofInt] using this
  obtain ⟨ha, ha1, ha2⟩ := round64_bounded ((x : ℚ) + -q) (-q) q hrepn hrep (by linarith)
    (by linarith) (by linarith) (by linarith)
  have hdbl := roundQ_double binary64 q hrep
  have hb : binary64.round (q * 2) = FP.fin (q * 2) := by
    rw [round_eq_fin, hdbl]
    rw [hdbl, abs_of_pos (by linarith)]
    show q * 2 < (2 : ℚ) ^ ((1023 : ℤ) + 1)
    have : (2 : ℚ) ^ ((1023 : ℤ) + 1) = (2 : ℚ) ^ (1024 : ℤ) := by norm_num
    rw [this]
    have : (2 : ℚ) ^ 30 * 2 < (2 : ℚ) ^ (32 : ℕ) := by norm_num
    linarith
  have hbpos : (0 : ℚ) < q * 2 := by linarith
  have hhalfn : binary64.roundQ (-(1 / 2)) = -(1 / 2) := by rw [roundQ_neg, roundQ64_half]
  have hquot : |binary64.roundQ ((x : ℚ) + -q) / (q * 2)| ≤ 1 / 2 := by
    rw [abs_div, abs_of_pos hbpos, div_le_iff₀ hbpos, abs_le]
    constructor <;> linarith
  rw [abs_le] at hquot
  obtain ⟨hd, hd1, hd2⟩ := round64_bounded
    (binary64.roundQ ((x : ℚ) + -q) / (q * 2)) (-(1 / 2)) (1 / 2) hhalfn roundQ64_half
    hquot.1 hquot.2
    (by
      have : (0 : ℚ) < (2 : ℚ) ^ (1024 : ℤ) := two_zpow_pos 1024
      linarith)
    (by linarith [show (1 : ℚ) < (2 : ℚ) ^ (32 : ℕ) by norm_num])
  refine ⟨binary64.roundQ (binary64.roundQ ((x : ℚ) + -q) / (q * 2)), ?_, ?_⟩
  · rw [hxi, h2i]
    show FP.div binary64 (binary64.round ((x : ℚ) + -q)) (binary64.round (q * 2)) = _
    rw [ha, hb]
    show (if q * 2 = 0 then _ else _) = _
    rw [if_neg hbpos.ne', hd]
  · rw [abs_le]
    exact ⟨hd1, hd2⟩

end Smooth

namespace Smooth

/-- The argument of `exp` for a cell of the grid is a finite number between `-6.25`
and `0`. -/
theorem gaussArg_range (q : ℚ) (x y : Int) (hq : 0 < q) (hrep : binary64.roundQ q = q)
    (hq30 : q < 2 ^ 30) (hx : 0 ≤ x ∧ x ≤ 2 * ⌊q⌋) (hy : 0 ≤ y ∧ y ≤ 2 * ⌊q⌋) :
    ∃ dx dy m : ℚ,
      FP.div binary64 (FP.sub binary64 (FP.ofInt binary64 x) (FP.fin q))
        (FP.mul binary64 (FP.fin q) (FP.ofInt binary64 2)) = FP.fin dx ∧ |dx| ≤ 1 / 2 ∧
      FP.div binary64 (FP.sub binary64 (FP.ofInt binary64 y) (FP.fin q))
        (FP.mul binary64 (FP.fin q) (FP.ofInt binary64 2)) = FP.fin dy ∧ |dy| ≤ 1 / 2 ∧
      FP.mul binary64 (FP.neg c0_5)
        (FP.div binary64
          (FP.add binary64
            (mysqr (FP.div binary64 (FP.sub binary64 (FP.ofInt binary64 x) (FP.fin q))
              (FP.mul binary64 (FP.fin q) (FP.ofInt binary64 2))))
            (mysqr (FP.div binary64 (FP.sub binary64 (FP.ofInt binary64 y) (FP.fin q))
              (FP.mul binary64 (FP.fin q) (FP.ofInt binary64 2)))))
          (mysqr c0_2)) = FP.fin m ∧ -(25 / 4) ≤ m ∧ m ≤ 0 := by
  obtain ⟨dx, hdx, hdx1⟩ := normCoord_half q x hq hrep hq30 hx
  obtain ⟨dy, hdy, hdy1⟩ := normCoord_half q y hq hrep hq30 hy
  have hbig : (2 : ℚ) ^ (32 : ℕ) < (2 : ℚ) ^ (1024 : ℤ) := two_pow_1024_big
  have h232 : (2 : ℚ) ^ (32 : ℕ) = 4294967296 := by norm_num
  have hg0 : binary64.roundQ 0 = 0 := roundQ_zero _
  have hg4 := roundQ64_quarter
  have hg2 := roundQ64_half
  have hg25 : binary64.roundQ (25 / 2) = 25 / 2 := by
    have := roundQ_grid binary64 25 (-1) (by decide) (by decide)
    norm_num at this ⊢
    exact this
  have hg254 : binary64.roundQ (-(25 / 4)) = -(25 / 4) := by
    have := roundQ_grid binary64 25 (-2) (by decide) (by decide)
    rw [roundQ_neg]
    norm_num at this ⊢
    exact this
  have hsq : ∀ d : ℚ, |d| ≤ 1 / 2 → 0 ≤ d * d ∧ d * d ≤ 1 / 4 := by
    intro d hd
    rw [abs_le] at hd
    constructor
    · exact mul_self_nonneg d
    · nlinarith
  obtain ⟨hex, hex0, hex1⟩ := round64_bounded (dx * dx) 0 (1 / 4) hg0 hg4 (hsq dx hdx1).1
    (hsq dx hdx1).2 (by linarith) (by linarith)
  obtain ⟨hey, hey0, hey1⟩ := round64_bounded (dy * dy) 0 (1 / 4) hg0 hg4 (hsq dy hdy1).1
    (hsq dy hdy1).2 (by linarith) (by linarith)
  obtain ⟨hs, hs0, hs1⟩ := round64_bounded
    (binary64.roundQ (dx * dx) + binary64.roundQ (dy * dy)) 0 (1 / 2) hg0 hg2 (by linarith)
    (by linarith) (by linarith) (by linarith)
  set s : ℚ := binary64.roundQ (binary64.roundQ (dx * dx) + binary64.roundQ (dy * dy)) with hsdef
  have hc : (0 : ℚ) < 1441151880758559 / 36028797018963968 := by norm_num
  obtain ⟨ht, ht0, ht1⟩ := round64_bounded (s / (1441151880758559 / 36028797018963968)) 0
    (25 / 2) hg0 hg25 (div_nonneg hs0 hc.le) (by
      rw [div_le_iff₀ hc]
      norm_num
      linarith) (by linarith) (by linarith)
  set t : ℚ := binary64.roundQ (s / (1441151880758559 / 36028797018963968)) with htdef
  obtain ⟨hm, hm0, hm1⟩ := round64_bounded (-(1 / 2) * t) (-(25 / 4)) 0 hg254 hg0 (by linarith)
    (by linarith) (by linarith) (by linarith)
  refine ⟨dx, dy, binary64.roundQ (-(1 / 2) * t), hdx, hdx1, hdy, hdy1, ?_, hm0, hm1⟩
  rw [hdx, hdy, mysqr_c0_2_eq, c0_5_eq]
  show FP.mul binary64 (FP.fin (-(1 / 2)))
    (FP.div binary64 (FP.add binary64 (binary64.round (dx * dx)) (binary64.round (dy * dy)))
      (FP.fin (1441151880758559 / 36028797018963968))) = _
  rw [hex, hey]
  show FP.mul binary64 (FP.fin (-(1 / 2)))
    (FP.div binary64
      (binary64.round (binary64.roundQ (dx * dx) + binary64.roundQ (dy * dy)))
      (FP.fin (1441151880758559 / 36028797018963968))) = _
  rw [hs]
  show FP.mul binary64 (FP.fin (-(1 / 2)))
    (if (1441151880758559 / 36028797018963968 : ℚ) = 0 then _
      else binary64.round (s / (1441151880758559 / 36028797018963968))) = _
  rw [if_neg hc.ne', ht]
  show binary64.round (-(1 / 2) * t) = _
  rw [hm]

/-- The Gaussian value of a cell of the grid is at least `exp(-6.25)`, which is
above the threshold, so the value is kept; the weight stored is a finite number,
positive and at most `1`. -/
theorem kernelValue_positive (exp : FP → FP) (hexp : ExpSpec exp) (hexp2 : ExpGaussRange exp)
    (q : ℚ) (x y : Int) (hq : 0 < q) (hrep : binary64.roundQ q = q) (hq30 : q < 2 ^ 30)
    (hx : 0 ≤ x ∧ x ≤ 2 * ⌊q⌋) (hy : 0 ≤ y ∧ y ≤ 2 * ⌊q⌋) :
    ∃ g e w : ℚ, kernelValue exp (FP.fin q) x y = FP.fin g ∧
      exp (FP.fin (-(25 / 4))) = FP.fin e ∧ e ≤ g ∧ 5 / 10000 < e ∧ g ≤ 1 ∧
      FP.cast binary32 (kernelValue exp (FP.fin q) x y) = FP.fin w ∧
      1 / 1024 ≤ w ∧ w ≤ 1 := by
  obtain ⟨dx, dy, m, _, _, _, _, harg, hm0, hm1⟩ := gaussArg_range q x y hq hrep hq30 hx hy
  obtain ⟨g, hg, hg0, hg1⟩ := hexp.nonpos m hm1
  obtain ⟨e, he, he1⟩ := hexp2.edge
  have heg : e ≤ g := hexp2.mono _ _ e g hm0 hm1 he hg
  have hval : kernelValue exp (FP.fin q) x y = FP.fin g := by
    unfold kernelValue
    simp only [harg, hg, c0_0005_eq, FP.lt, decide_eq_true_eq]
    rw [if_neg]
    have : (1152921504606847 / 2305843009213693952 : ℚ) < 19 / 10000 := by norm_num
    linarith
  have h32_1 : binary32.roundQ 1 = 1 := by
    have := roundQ_intCast binary32 1 (by decide) (by decide)
    simpa using this
  have h32_lo : binary32.roundQ (1 / 1024) = 1 / 1024 := by
    have := roundQ_grid binary32 1 (-10) (by decide) (by decide)
    norm_num at this ⊢
    exact this
  have h128 : (1 : ℚ) < (2 : ℚ) ^ (128 : ℤ) := by norm_num
  obtain ⟨hw, hw0, hw1⟩ := round32_bounded g (1 / 1024) 1 h32_lo h32_1
    (by
      have : (1 / 1024 : ℚ) ≤ 19 / 10000 := by norm_num
      linarith)
    hg1 (by
      have : (0 : ℚ) < (2 : ℚ) ^ (128 : ℤ) := two_zpow_pos 128
      linarith) h128
  refine ⟨g, e, binary32.roundQ g, hval, he, heg, ?_, hg1, ?_, hw0, hw1⟩
  · have : (5 / 10000 : ℚ) < 19 / 10000 := by norm_num
    linarith
  · rw [hval]
    exact hw

end Smooth

namespace Smooth

theorem fin_of_round (f : Fmt) (q v : ℚ) (h : f.round q = FP.fin v) : v = f.roundQ q := by
  unfold Fmt.round at h
  simp only at h
  split_ifs at h
  injection h with h
  exact h.symm

theorem foldl_series_mono (t t' : ℚ) (ht : 0 ≤ t) (htt : t ≤ t') (l : List Nat) :
    ∀ s s' : ℚ, s ≤ s' →
    l.foldl (fun s k => s + t ^ k / (k.factorial : ℚ)) s ≤
      l.foldl (fun s k => s + t' ^ k / (k.factorial : ℚ)) s' := by
  induction l with
  | nil => intro s s' h; exact h
  | cons k l ih =>
    intro s s' h
    rw [List.foldl_cons, List.foldl_cons]
    apply ih
    have h1 : t ^ k ≤ t' ^ k := pow_le_pow_left₀ ht htt k
    have h2 : t ^ k / (k.factorial : ℚ) ≤ t' ^ k / (k.factorial : ℚ) :=
      div_le_div_of_nonneg_right h1 (by positivity)
    linarith

theorem expSeries_mono (t t' : ℚ) (ht : 0 ≤ t) (htt : t ≤ t') (n : Nat) :
    expSeries t n ≤ expSeries t' n :=
  foldl_series_mono t t' ht htt _ 0 0 le_rfl

theorem expStandIn_gaussRange : ExpGaussRange expStandIn := by
  refine ⟨?_, ⟨4451324406766815 / 2305843009213693952, by decide!, by norm_num⟩⟩
  intro a b va vb hab hb ha' hb'
  have ha : a ≤ 0 := le_trans hab hb
  have e1 : expStandIn (FP.fin a) = binary64.round (1 / expSeries (-a) 24) := by
    show (if a ≤ 0 then _ else _) = _
    rw [if_pos ha]
  have e2 : expStandIn (FP.fin b) = binary64.round (1 / expSeries (-b) 24) := by
    show (if b ≤ 0 then _ else _) = _
    rw [if_pos hb]
  rw [e1] at ha'
  rw [e2] at hb'
  rw [fin_of_round _ _ _ ha', fin_of_round _ _ _ hb']
  apply roundQ_mono binary64 (by decide)
  have hPb : 1 ≤ expSeries (-b) 24 := expSeries_ge_one (-b) (by linarith) 23
  have hP : expSeries (-b) 24 ≤ expSeries (-a) 24 :=
    expSeries_mono (-b) (-a) (by linarith) (by linarith) 24
  exact one_div_le_one_div_of_le (by linarith) hP

/-- C14: the threshold `0.0005` is never reached.  For a radius `r > 0` (a
`double`, with a side length that fits an `int`) and every cell `0 ≤ x, y <
2*trunc(r) + 1`, the normalised coordinates computed for the cell have magnitude at
most `1/2`, so the Gaussian value `g` of the cell is at least `exp(-6.25)`, which is
above `0.0005`: the value is kept, not replaced by `0`, and the weight stored in the
cell is strictly positive and at most `1`. -/
theorem threshold_never_fires (exp : FP → FP) (q : ℚ) (x y : Int) (hexp : ExpSpec exp)
    (hexp2 : ExpGaussRange exp) (hq : 0 < q) (hrep : binary64.roundQ q = q)
    (hq30 : q < 2 ^ 30) (hx : 0 ≤ x ∧ x < 2 * ⌊q⌋ + 1) (hy : 0 ≤ y ∧ y < 2 * ⌊q⌋ + 1) :
    ∃ dx dy g e w : ℚ,
      FP.div binary64 (FP.sub binary64 (FP.ofInt binary64 x) (FP.fin q))
        (FP.mul binary64 (FP.fin q) (FP.ofInt binary64 2)) = FP.fin dx ∧ |dx| ≤ 1 / 2 ∧
      FP.div binary64 (FP.sub binary64 (FP.ofInt binary64 y) (FP.fin q))
        (FP.mul binary64 (FP.fin q) (FP.ofInt binary64 2)) = FP.fin dy ∧ |dy| ≤ 1 / 2 ∧
      kernelValue exp (FP.fin q) x y = FP.fin g ∧
      exp (FP.fin (-(25 / 4))) = FP.fin e ∧ e ≤ g ∧ 5 / 10000 < e ∧
      kernelAt (makeKernel exp (FP.fin q)).1 (y * (2 * ⌊q⌋ + 1) + x) = FP.fin w ∧
      0 < w ∧ w ≤ 1 := by
  have hx' : 0 ≤ x ∧ x ≤ 2 * ⌊q⌋ := ⟨hx.1, by omega⟩
  have hy' : 0 ≤ y ∧ y ≤ 2 * ⌊q⌋ := ⟨hy.1, by omega⟩
  obtain ⟨dx, dy, m, hdx, hdx1, hdy, hdy1, _, _, _⟩ := gaussArg_range q x y hq hrep hq30 hx' hy'
  obtain ⟨g, e, w, hg, he, heg, he5, _, hw, hw0, hw1⟩ :=
    kernelValue_positive exp hexp hexp2 q x y hq hrep hq30 hx' hy'
  have hsize : (makeKernel exp (FP.fin q)).2 = 2 * ⌊q⌋ + 1 :=
    makeKernel_size exp q hq.le hq30
  have hcell := makeKernel_getD exp (FP.fin q) x y (by rw [hsize]; exact hx)
    (by rw [hsize]; exact hy)
  rw [hsize, hw] at hcell
  exact ⟨dx, dy, g, e, w, hdx, hdx1, hdy, hdy1, hg, he, heg, he5, hcell,
    by linarith [show (0 : ℚ) < 1 / 1024 by norm_num], hw1⟩

/-- C14 at the radius `3.5` and the corner cell `(0, 0)`. -/
theorem threshold_never_fires_witness :
    ∃ dx dy g e w : ℚ,
      FP.div binary64 (FP.sub binary64 (FP.ofInt binary64 0) (FP.fin (7 / 2)))
        (FP.mul binary64 (FP.fin (7 / 2)) (FP.ofInt binary64 2)) = FP.fin dx ∧ |dx| ≤ 1 / 2 ∧
      FP.div binary64 (FP.sub binary64 (FP.ofInt binary64 0) (FP.fin (7 / 2)))
        (FP.mul binary64 (FP.fin (7 / 2)) (FP.ofInt binary64 2)) = FP.fin dy ∧ |dy| ≤ 1 / 2 ∧
      kernelValue expStandIn (FP.fin (7 / 2)) 0 0 = FP.fin g ∧
      expStandIn (FP.fin (-(25 / 4))) = FP.fin e ∧ e ≤ g ∧ 5 / 10000 < e ∧
      kernelAt (makeKernel expStandIn (FP.fin (7 / 2))).1 (0 * (2 * ⌊(7 / 2 : ℚ)⌋ + 1) + 0)
        = FP.fin w ∧
      0 < w ∧ w ≤ 1 :=
  threshold_never_fires expStandIn (7 / 2) 0 0 expStandIn_spec expStandIn_gaussRange
    (by norm_num) (by decide!) (by norm_num) (by decide!) (by decide!)

end Smooth

namespace Smooth

/-! ## Rounding errors of the sums -/

end Smooth

namespace Smooth

/-! ## Rounding errors of the products -/

end Smooth

namespace Smooth

/-! ## The scaled sum -/

end Smooth

namespace Smooth

end Smooth

namespace Smooth

/-! ## The terms of a pixel as a list -/

end Smooth

namespace Smooth

end Smooth

namespace Smooth

end Smooth

namespace Smooth

end Smooth

namespace Smooth

end Smooth

namespace Smooth

end Smooth

namespace Smooth

end Smooth
